import Mathlib

/-!
# Verification of the jettison binary serialization library

This file gives a shallow embedding of `jettison/__init__.py`, a schema-driven
binary serialization codec (struct-based packing of fixed-width scalars,
length-prefixed arrays and UTF-8 strings, multiplexed over a definition-id
prefix), and proves properties of the embedded functions.

Modelling conventions:
* Byte strings are `List Nat` with each entry a byte value.
* Python values are an inductive `Value`; Python `float` objects are modelled
  by their IEEE-754 bit patterns at the width of the codec that handles them
  (`vf32` for values exactly representable in binary32, `vf64` for binary64),
  so packing and unpacking move bit patterns and the float32 rounding of a
  wider value is not modelled.
* Python `list` and `tuple` are distinct constructors (`vlist` / `vtuple`),
  since `struct.unpack_from` returns tuples and Python `==` distinguishes the
  two; `dict` is an association list with Python's insert-or-replace update.
* Exceptions become `Except JErr`; `JErr` distinguishes the Python exception
  classes that the library can raise.
* Mutation of codec attributes (the `size` slot written by
  `ArrayCodec.loads` / `StringCodec.loads`) is modelled by returning the
  updated codec record next to the decoded value.  `Definition.loads` reads
  `size` immediately after each `loads` call on the same codec object, so
  threading the state locally is observationally equivalent to the attribute
  assignment in single-threaded execution.
-/

namespace Jettison

/-- Python exception classes distinguished by the embedding. -/
inductive JErr where
  | structError
  | valueError
  | keyError
  | assertionError
  | attributeError
  | typeError
  | unicodeEncodeError
  | unicodeDecodeError
deriving DecidableEq, Repr

/-- Python values, as far as the library manipulates them. -/
inductive Value where
  | vnone
  | vbool (b : Bool)
  | vint (n : Int)
  | vf32 (bits : Nat)
  | vf64 (bits : Nat)
  | vstr (cps : List Nat)
  | vbytes (bs : List Nat)
  | vlist (vs : List Value)
  | vtuple (vs : List Value)
deriving Repr

mutual

/-- Boolean equality on `Value` (Python `==` restricted to structurally equal
values; the numeric cross-type coercions of Python `==` are not needed by
any theorem below). -/
def Value.beq : Value → Value → Bool
  | .vnone, .vnone => true
  | .vbool a, .vbool b => a == b
  | .vint a, .vint b => a == b
  | .vf32 a, .vf32 b => a == b
  | .vf64 a, .vf64 b => a == b
  | .vstr a, .vstr b => a == b
  | .vbytes a, .vbytes b => a == b
  | .vlist a, .vlist b => Value.beqList a b
  | .vtuple a, .vtuple b => Value.beqList a b
  | _, _ => false

/-- Elementwise `Value.beq` on lists. -/
def Value.beqList : List Value → List Value → Bool
  | [], [] => true
  | a :: as, b :: bs => Value.beq a b && Value.beqList as bs
  | _, _ => false

end

instance : BEq Value := ⟨Value.beq⟩

/-- Association list with Python-`dict` lookup: first (unique) matching key. -/
def alistGet {κ α : Type} [DecidableEq κ] : List (κ × α) → κ → Option α
  | [], _ => none
  | (k, v) :: rest, key => if k = key then some v else alistGet rest key

/-- Association list with Python-`dict` update: replace in place or append. -/
def alistSet {κ α : Type} [DecidableEq κ] : List (κ × α) → κ → α → List (κ × α)
  | [], key, val => [(key, val)]
  | (k, v) :: rest, key, val =>
    if k = key then (k, val) :: rest else (k, v) :: alistSet rest key val

/-- A Python `dict` mapping record keys to values. -/
abbrev Dict := List (String × Value)

/-- Python `dict` equality: the same keys map to the same values. -/
def dictEqB (a b : Dict) : Bool :=
  (a.all fun kv => alistGet b kv.1 == alistGet a kv.1) &&
  (b.all fun kv => alistGet a kv.1 == alistGet b kv.1)

/-- Little-endian base-256 digits of `v`, `w` bytes wide. -/
def packLE : Nat → Nat → List Nat
  | 0, _ => []
  | w + 1, v => v % 256 :: packLE w (v / 256)

/-- Read a little-endian base-256 digit list back into a number. -/
def unpackLE : List Nat → Nat
  | [] => 0
  | b :: bs => b + 256 * unpackLE bs

/-- Byte order selection of `struct`: `<` keeps the little-endian digits,
`>` reverses them. -/
def packNatRaw (w u : Nat) (le : Bool) : List Nat :=
  if le then packLE w u else (packLE w u).reverse

/-- Byte order selection for unpacking, mirroring `packNatRaw`. -/
def unpackNatRaw (bs : List Nat) (le : Bool) : Nat :=
  if le then unpackLE bs else unpackLE bs.reverse

/-- Buffer access of `struct.unpack_from`: `n` bytes starting at `off`, or a
`struct.error` when the buffer is too short. -/
def readAt (s : List Nat) (off n : Nat) : Option (List Nat) :=
  if off + n ≤ s.length then some ((s.drop off).take n) else none

/-- A codepoint that Python's strict `utf-8` codec will encode: a Unicode
scalar value (below `0x110000` and not a surrogate). -/
def validScalar (c : Nat) : Bool :=
  decide (c < 0x110000) && !(decide (0xD800 ≤ c) && decide (c < 0xE000))

/-- UTF-8 encoding of one Unicode scalar value, as `bytes.encode('utf-8')`
produces it. -/
def utf8EncodeChar (c : Nat) : List Nat :=
  if c < 0x80 then [c]
  else if c < 0x800 then [0xC0 + c / 64, 0x80 + c % 64]
  else if c < 0x10000 then [0xE0 + c / 4096, 0x80 + c / 64 % 64, 0x80 + c % 64]
  else [0xF0 + c / 262144, 0x80 + c / 4096 % 64, 0x80 + c / 64 % 64, 0x80 + c % 64]

/-- UTF-8 encoding of a codepoint sequence (`str.encode('utf-8')`). -/
def utf8Encode (cps : List Nat) : List Nat := (cps.map utf8EncodeChar).flatten

/-- One step of strict UTF-8 decoding: given a lead byte and the remaining
buffer, the decoded codepoint and how many continuation bytes it uses, or
`none` on malformed input (stray lead or continuation bytes, overlong forms,
surrogates, codepoints past `0x10FFFF`). -/
def utf8DecodeChar (b : Nat) (rest : List Nat) : Option (Nat × Nat) :=
  if b < 0x80 then some (b, 0)
  else if b < 0xC2 then none
  else if b < 0xE0 then
    match rest with
    | b1 :: _ =>
      if 0x80 ≤ b1 ∧ b1 < 0xC0 then some ((b - 0xC0) * 64 + (b1 - 0x80), 1) else none
    | _ => none
  else if b < 0xF0 then
    match rest with
    | b1 :: b2 :: _ =>
      if (0x80 ≤ b1 ∧ b1 < 0xC0) ∧ (0x80 ≤ b2 ∧ b2 < 0xC0) ∧
          ¬(b = 0xE0 ∧ b1 < 0xA0) ∧ ¬(b = 0xED ∧ 0xA0 ≤ b1) then
        some ((b - 0xE0) * 4096 + (b1 - 0x80) * 64 + (b2 - 0x80), 2)
      else none
    | _ => none
  else if b < 0xF5 then
    match rest with
    | b1 :: b2 :: b3 :: _ =>
      if (0x80 ≤ b1 ∧ b1 < 0xC0) ∧ (0x80 ≤ b2 ∧ b2 < 0xC0) ∧
          (0x80 ≤ b3 ∧ b3 < 0xC0) ∧
          ¬(b = 0xF0 ∧ b1 < 0x90) ∧ ¬(b = 0xF4 ∧ 0x90 ≤ b1) then
        some ((b - 0xF0) * 262144 + (b1 - 0x80) * 4096 + (b2 - 0x80) * 64 + (b3 - 0x80), 3)
      else none
    | _ => none
  else none

/-- Strict UTF-8 decoding (`bytes.decode('utf-8')`); `none` models
`UnicodeDecodeError`. -/
def utf8Decode : List Nat → Option (List Nat)
  | [] => some []
  | b :: rest =>
    match utf8DecodeChar b rest with
    | none => none
    | some (c, n) => (utf8Decode (rest.drop n)).map (c :: ·)
termination_by l => l.length
decreasing_by simp [List.length_drop]; omega

/-- Sizes per `struct.calcsize` for the standard-size formats the library uses. -/
def formatSize : Char → Nat
  | 'b' | 'B' | '?' => 1
  | 'h' | 'H' => 2
  | 'i' | 'I' | 'f' => 4
  | 'd' => 8
  | _ => 0

/-- The representable range `struct.pack` enforces for each standard integer
format (`struct.error` outside it). -/
def intRange : Char → Option (Int × Int)
  | 'b' => some (-128, 127)
  | 'B' => some (0, 255)
  | 'h' => some (-32768, 32767)
  | 'H' => some (0, 65535)
  | 'i' => some (-2147483648, 2147483647)
  | 'I' => some (0, 4294967295)
  | _ => none

/-- Python truthiness, as `struct.pack('?', value)` applies it.  Floats are
falsy exactly when their bit pattern is `±0.0`. -/
def truthy : Value → Bool
  | .vnone => false
  | .vbool b => b
  | .vint n => n != 0
  | .vf32 bits => bits % 2147483648 != 0
  | .vf64 bits => bits % 9223372036854775808 != 0
  | .vstr cps => !cps.isEmpty
  | .vbytes bs => !bs.isEmpty
  | .vlist vs => !vs.isEmpty
  | .vtuple vs => !vs.isEmpty

/-- Packing of one value by `struct.pack` with an explicit-byte-order format.  Integer
formats take ints (and bools, which are ints in Python) and enforce the
representable range; `?` packs truthiness; float formats move the bit
pattern of a float of their own width (conversion of ints or of
differently-sized floats, which CPython performs by rounding, is outside the
bit-pattern model and mapped to an error, as is every other ill-typed value). -/
def packValue (fmt : Char) (v : Value) (le : Bool) : Except JErr (List Nat) :=
  match fmt, v with
  | '?', v => .ok [if truthy v then 1 else 0]
  | 'f', .vf32 bits =>
    if bits < 4294967296 then .ok (packNatRaw 4 bits le) else .error .structError
  | 'd', .vf64 bits =>
    if bits < 18446744073709551616 then .ok (packNatRaw 8 bits le) else .error .structError
  | fmt, .vint n =>
    match intRange fmt with
    | some (lo, hi) =>
      if lo ≤ n ∧ n ≤ hi then
        .ok (packNatRaw (formatSize fmt) ((n % (2 ^ (8 * formatSize fmt))).toNat) le)
      else .error .structError
    | none => .error .structError
  | fmt, .vbool b =>
    match intRange fmt with
    | some _ => .ok (packNatRaw (formatSize fmt) (if b then 1 else 0) le)
    | none => .error .structError
  | _, _ => .error .structError

/-- Unpacking of one value by `struct.unpack_from` at an offset. -/
def unpackValueFrom (fmt : Char) (s : List Nat) (off : Nat) (le : Bool) : Except JErr Value :=
  match readAt s off (formatSize fmt) with
  | none => .error .structError
  | some bs =>
    let u := unpackNatRaw bs le
    match fmt with
    | '?' => .ok (.vbool (u != 0))
    | 'f' => .ok (.vf32 u)
    | 'd' => .ok (.vf64 u)
    | 'b' => .ok (.vint (if u < 128 then (u : Int) else (u : Int) - 256))
    | 'h' => .ok (.vint (if u < 32768 then (u : Int) else (u : Int) - 65536))
    | 'i' => .ok (.vint (if u < 2147483648 then (u : Int) else (u : Int) - 4294967296))
    | 'B' | 'H' | 'I' => .ok (.vint u)
    | _ => .error .structError

/-- The `Codec` class: a thin wrapper around one `struct` format character,
with precomputed big/little structs and a fixed `size`. -/
structure Codec where
  format : Char
deriving DecidableEq, Repr

/-- The `size` attribute set in `Codec.__init__` via `struct.calcsize`. -/
def Codec.size (c : Codec) : Nat := formatSize c.format

/-- The `Codec.dumps` method. -/
def Codec.dumps (c : Codec) (v : Value) (le : Bool := false) : Except JErr (List Nat) :=
  packValue c.format v le

/-- The `Codec.loads` method. -/
def Codec.loads (c : Codec) (s : List Nat) (off : Nat := 0) (le : Bool := false) :
    Except JErr Value :=
  unpackValueFrom c.format s off le

/-- The `_get_length_struct(...).pack` call: the 4-byte unsigned length prefix. -/
def packLen (n : Nat) (le : Bool) : Except JErr (List Nat) :=
  if n < 4294967296 then .ok (packNatRaw 4 n le) else .error .structError

/-- The `_get_length_struct(...).unpack_from` call: read the 4-byte length prefix. -/
def unpackLenFrom (s : List Nat) (off : Nat) (le : Bool) : Except JErr Nat :=
  match readAt s off 4 with
  | some bs => .ok (unpackNatRaw bs le)
  | none => .error .structError

/-- The `ArrayCodec` class.  `size` is the attribute its `loads` assigns; a
fresh codec has no `size` attribute yet (`none`). -/
structure ArrayCodec where
  value_format : Char
  size : Option Nat := none
deriving DecidableEq, Repr

/-- Packing by `struct.pack` of `length` repetitions of a scalar format
(`'>{length}fmt'`), one packed value per list element. -/
def packSeq (fmt : Char) (le : Bool) : List Value → Except JErr (List Nat)
  | [] => .ok []
  | v :: vs => do
    let bs ← packValue fmt v le
    let rest ← packSeq fmt le vs
    pure (bs ++ rest)

/-- Unpacking by `struct.unpack_from` of `n` repetitions of a scalar format starting at
`off`. -/
def unpackSeqFrom (fmt : Char) (le : Bool) : Nat → List Nat → Nat → Except JErr (List Value)
  | 0, _, _ => .ok []
  | n + 1, s, off => do
    let v ← unpackValueFrom fmt s off le
    let rest ← unpackSeqFrom fmt le n s (off + formatSize fmt)
    pure (v :: rest)

/-- The `ArrayCodec.dumps` method: uint32 length prefix followed by the packed items. -/
def ArrayCodec.dumps (a : ArrayCodec) (values : List Value) (le : Bool := false) :
    Except JErr (List Nat) := do
  let lenBytes ← packLen values.length le
  let body ← packSeq a.value_format le values
  pure (lenBytes ++ body)

/-- The `ArrayCodec.loads` method: reads the length prefix, sets the `size` attribute to
the consumed byte count, and unpacks that many items (a tuple in Python). -/
def ArrayCodec.loads (a : ArrayCodec) (s : List Nat) (off : Nat := 0) (le : Bool := false) :
    Except JErr (List Value × ArrayCodec) := do
  let length ← unpackLenFrom s off le
  if length ≠ 0 then
    let vs ← unpackSeqFrom a.value_format le length s (off + 4)
    pure (vs, { a with size := some (length * formatSize a.value_format + 4) })
  else
    pure ([], { a with size := some 4 })

/-- The `StringCodec` class.  Like `ArrayCodec`, its only per-object state is
the `size` attribute assigned by `loads`. -/
structure StringCodec where
  size : Option Nat := none
deriving DecidableEq, Repr

/-- The `StringCodec.dumps` method: asserts the value is text (raising `AssertionError`
otherwise), UTF-8-encodes it, and emits a uint32 byte-length prefix followed
by the UTF-8 bytes. -/
def StringCodec.dumps (_sc : StringCodec) (value : Value) (le : Bool := false) :
    Except JErr (List Nat) :=
  match value with
  | .vstr cps =>
    if cps.all validScalar then do
      let encoded := utf8Encode cps
      let lenBytes ← packLen encoded.length le
      pure (lenBytes ++ encoded)
    else .error .unicodeEncodeError
  | _ => .error .assertionError

/-- The `StringCodec.loads` method: reads the length prefix, sets the `size` attribute
to the consumed byte count, and UTF-8-decodes that many bytes. -/
def StringCodec.loads (sc : StringCodec) (s : List Nat) (off : Nat := 0) (le : Bool := false) :
    Except JErr (Value × StringCodec) := do
  let length ← unpackLenFrom s off le
  if length ≠ 0 then
    match readAt s (off + 4) length with
    | none => .error .structError
    | some bs =>
      match utf8Decode bs with
      | some cps => pure (.vstr cps, { sc with size := some (length + 4) })
      | none => .error .unicodeDecodeError
  else
    pure (.vstr [], { sc with size := some 4 })

/-- The codec object a `Field` can hold: a shared primitive codec, a
per-field `ArrayCodec`, or the shared `StringCodec` singleton. -/
inductive FieldCodec where
  | prim (c : Codec)
  | array (a : ArrayCodec)
  | str (sc : StringCodec)
deriving DecidableEq, Repr

/-- The `size` attribute of whichever codec the field holds (`none` when the
attribute has not been assigned yet). -/
def FieldCodec.size : FieldCodec → Option Nat
  | .prim c => some c.size
  | .array a => a.size
  | .str sc => sc.size

/-- Dispatch `dumps` to the held codec.  `ArrayCodec.dumps` accepts any
sequence; Python lists and tuples both qualify. -/
def FieldCodec.dumps : FieldCodec → Value → Bool → Except JErr (List Nat)
  | .prim c, v, le => c.dumps v le
  | .array a, v, le =>
    match v with
    | .vlist vs => a.dumps vs le
    | .vtuple vs => a.dumps vs le
    | _ => .error .typeError
  | .str sc, v, le => sc.dumps v le

/-- Dispatch `loads` to the held codec, returning the decoded value and the
codec's state afterwards (arrays decode to tuples). -/
def FieldCodec.loads : FieldCodec → List Nat → Nat → Bool → Except JErr (Value × FieldCodec)
  | .prim c, s, off, le => (c.loads s off le).map (fun v => (v, .prim c))
  | .array a, s, off, le => (a.loads s off le).map (fun p => (.vtuple p.1, .array p.2))
  | .str sc, s, off, le => (sc.loads s off le).map (fun p => (p.1, .str p.2))

/-- The process-wide `_codecs` table mapping type tags to codec singletons
(the `array` type is absent: its codec is built per field). -/
def _codecs : String → Option FieldCodec
  | "boolean" => some (.prim ⟨'?'⟩)
  | "float32" => some (.prim ⟨'f'⟩)
  | "float64" => some (.prim ⟨'d'⟩)
  | "int8" => some (.prim ⟨'b'⟩)
  | "int16" => some (.prim ⟨'h'⟩)
  | "int32" => some (.prim ⟨'i'⟩)
  | "string" => some (.str ⟨none⟩)
  | "uint8" => some (.prim ⟨'B'⟩)
  | "uint16" => some (.prim ⟨'H'⟩)
  | "uint32" => some (.prim ⟨'I'⟩)
  | _ => none

/-- The `Field` class: one key of the record, bound to a resolved codec. -/
structure Field where
  key : String
  type : String
  value_type : Option String
  codec : FieldCodec
deriving DecidableEq, Repr

/-- The `Field.__init__` constructor: validates the `(key, type, value_type)` configuration
and resolves the codec, raising `ValueError` on an empty key, an unknown
type, or a bad array value type.  The `some _` fallthrough in the array arm
models the `AttributeError` a `.format` access on the string codec would
raise; it is unreachable because `value_type = "string"` is rejected first. -/
def Field.init (key type : String) (value_type : Option String := none) : Except JErr Field :=
  if key = "" then .error .valueError
  else if type = "array" then
    if value_type = some "array" ∨ value_type = some "string" then .error .valueError
    else
      match value_type with
      | none => .error .valueError
      | some vt =>
        match _codecs vt with
        | none => .error .valueError
        | some (.prim c) =>
          .ok { key, type, value_type, codec := .array { value_format := c.format } }
        | some _ => .error .attributeError
  else
    match _codecs type with
    | some c => .ok { key, type, value_type, codec := c }
    | none => .error .valueError

/-- A field spec dict, the `**kwargs` passed to `Field`. -/
structure FieldSpec where
  key : String
  type : String
  value_type : Option String := none
deriving DecidableEq, Repr

/-- The `Definition` class: an ordered list of fields plus optional schema id
and key, and the endianness used for every field codec call. -/
structure Definition where
  fields : List Field
  id : Option Nat := none
  key : Option String := none
  little_endian : Bool := false
deriving DecidableEq, Repr

/-- The encoding loop of `Definition.dumps`: concatenate each field's
encoding of `data[field.key]` in declared order (`KeyError` on a missing
key). -/
def dumpFields (data : Dict) (le : Bool) : List Field → Except JErr (List Nat)
  | [] => .ok []
  | f :: rest => do
    let v ← match alistGet data f.key with
            | some v => Except.ok v
            | none => Except.error JErr.keyError
    let bs ← f.codec.dumps v le
    let restBs ← dumpFields data le rest
    pure (bs ++ restBs)

/-- The `Definition.dumps` method. -/
def Definition.dumps (d : Definition) (data : Dict) : Except JErr (List Nat) :=
  dumpFields data d.little_endian d.fields

/-- The decoding loop of `Definition.loads`: decode each field at the running
offset, then advance the offset by the codec's `size` attribute (which the
variable-length codecs have just assigned). -/
def loadFields (s : List Nat) (le : Bool) : List Field → Nat → Dict → Except JErr Dict
  | [], _, values => .ok values
  | f :: rest, off, values => do
    let (v, c) ← f.codec.loads s off le
    match c.size with
    | some n => loadFields s le rest (off + n) (alistSet values f.key v)
    | none => .error .attributeError

/-- The `Definition.loads` method.  Inputs are modelled as byte buffers; the branch that
UTF-8-encodes a text input first is not modelled. -/
def Definition.loads (d : Definition) (s : List Nat) (off : Nat := 0) : Except JErr Dict :=
  loadFields s d.little_endian d.fields off []

/-- The `Schema` class: definitions registered by key and by sequential id. -/
structure Schema where
  definitions : List (String × Definition)
  definitions_by_id : List (Nat × Definition)
  id_type : String
  next_definition_id : Nat
deriving DecidableEq, Repr

/-- The `Schema.__init__` constructor. -/
def Schema.init (id_type : String := "uint8") : Schema :=
  { definitions := [], definitions_by_id := [], id_type, next_definition_id := 1 }

/-- The `Schema.define` method: build the fields, assign the next sequential id, and
register the definition in both maps. -/
def Schema.define (s : Schema) (key : String) (fields : List FieldSpec) :
    Except JErr (Definition × Schema) := do
  let fs ← fields.mapM (fun sp => Field.init sp.key sp.type sp.value_type)
  let definition : Definition :=
    { fields := fs, id := some s.next_definition_id, key := some key, little_endian := false }
  pure (definition,
    { s with
        next_definition_id := s.next_definition_id + 1,
        definitions := alistSet s.definitions key definition,
        definitions_by_id := alistSet s.definitions_by_id s.next_definition_id definition })

/-- The `Schema.dumps` method: id prefix (big-endian, the codec's default) followed by
the definition's encoding of the record. -/
def Schema.dumps (s : Schema) (key : String) (data : Dict) : Except JErr (List Nat) :=
  match alistGet s.definitions key with
  | none => .error .keyError
  | some definition =>
    match _codecs s.id_type with
    | none => .error .keyError
    | some id_codec => do
      let idBytes ← id_codec.dumps
        (match definition.id with | some i => Value.vint i | none => Value.vnone) false
      let body ← definition.dumps data
      pure (idBytes ++ body)

/-- The integer key a decoded id value selects in `definitions_by_id`
(Python `dict` lookup equates `True`/`False` with `1`/`0`; a float id that
happens to equal an int key is outside the bit-pattern float model and is
treated as no match). -/
def idKeyOf : Value → Option Nat
  | .vint n => if n < 0 then none else some n.toNat
  | .vbool b => some (if b then 1 else 0)
  | _ => none

/-- The `Schema.loads` method: decode the id with the id codec, dispatch to the
registered definition, and decode the rest of the buffer after the id. -/
def Schema.loads (s : Schema) (string : List Nat) : Except JErr Dict :=
  match _codecs s.id_type with
  | none => .error .keyError
  | some id_codec => do
    let (idv, id_codec2) ← id_codec.loads string 0 false
    match (idKeyOf idv).bind (alistGet s.definitions_by_id) with
    | none => .error .keyError
    | some definition =>
      match id_codec2.size with
      | some n => definition.loads string n
      | none => .error .attributeError

/-- The module-level `define` helper: a standalone `Definition` with no id,
no key, and big-endian encoding. -/
def define (field_kwargs : List FieldSpec) : Except JErr Definition := do
  let fs ← field_kwargs.mapM (fun sp => Field.init sp.key sp.type sp.value_type)
  pure { fields := fs, id := none, key := none, little_endian := false }

/-- In-range values of a scalar type tag: the values the format packs and
unpacking returns unchanged. -/
def scalarWF (fmt : Char) (v : Value) : Bool :=
  match fmt, v with
  | '?', .vbool _ => true
  | 'f', .vf32 bits => decide (bits < 4294967296)
  | 'd', .vf64 bits => decide (bits < 18446744073709551616)
  | _, .vint n =>
    match intRange fmt with
    | some (lo, hi) => decide (lo ≤ n) && decide (n ≤ hi)
    | none => false
  | _, _ => false

/-- In-range values of a field whose round trip through the field's codec is
exact: scalars in range, tuples of in-range scalars for arrays (decoding
returns tuples), and encodable text for strings. -/
def fieldWF : FieldCodec → Value → Bool
  | .prim c, v => scalarWF c.format v
  | .array a, v =>
    match v with
    | .vtuple vs => decide (vs.length < 4294967296) && vs.all (scalarWF a.value_format)
    | _ => false
  | .str _, v =>
    match v with
    | .vstr cps => cps.all validScalar && decide ((utf8Encode cps).length < 4294967296)
    | _ => false

/-- In-range values a field's codec encodes without error, read off the
claim's words: for an array field this also admits a Python list of in-range
scalars, which `ArrayCodec.dumps` accepts just like a tuple. -/
def encodableValue : FieldCodec → Value → Bool
  | .array a, .vlist vs => decide (vs.length < 4294967296) && vs.all (scalarWF a.value_format)
  | c, v => fieldWF c v

/-- A record mapping each field key of the definition to an in-range value of
the field's declared type (and mentioning no other keys). -/
def recordWFB (d : Definition) (record : Dict) : Bool :=
  (d.fields.all fun f =>
    match alistGet record f.key with
    | some v => fieldWF f.codec v
    | none => false) &&
  (record.all fun kv => d.fields.any fun f => f.key == kv.1)

/-- Variant of `recordWFB` with the claim-level reading of in-range values
(`encodableValue`), which also admits lists as array values. -/
def recordEncodableB (d : Definition) (record : Dict) : Bool :=
  (d.fields.all fun f =>
    match alistGet record f.key with
    | some v => encodableValue f.codec v
    | none => false) &&
  (record.all fun kv => d.fields.any fun f => f.key == kv.1)

/-- What `Definition.loads` accumulates: each field key set, in declared
order, to the value looked up under that key in the encoded record. -/
def setFields (data : Dict) (fields : List Field) (values : Dict) : Dict :=
  fields.foldl (fun acc f => alistSet acc f.key ((alistGet data f.key).getD .vnone)) values

/-- A value the string codec treats as text. -/
def isText : Value → Bool
  | .vstr _ => true
  | _ => false

/-- The invariant every `Schema` reachable by `define` calls maintains:
ids are at least 1 and below the counter, every id-map entry records its own
key, distinct entries hold distinct ids, and every definition in the key map
is registered under its id in the id map. -/
def SchemaInv (s : Schema) : Prop :=
  1 ≤ s.next_definition_id ∧
  (∀ p ∈ s.definitions_by_id, p.2.id = some p.1 ∧ 1 ≤ p.1 ∧ p.1 < s.next_definition_id) ∧
  (s.definitions_by_id.map Prod.fst).Nodup ∧
  (∀ p ∈ s.definitions, ∃ i, p.2.id = some i ∧ alistGet s.definitions_by_id i = some p.2)

/-- Run a list of `define` calls against a schema, a failed call leaving the
schema unchanged (the exception propagates before any state is mutated). -/
def runDefines : Schema → List (String × List FieldSpec) → Schema
  | s, [] => s
  | s, (k, fsp) :: ops =>
    match Schema.define s k fsp with
    | .ok (_, s2) => runDefines s2 ops
    | .error _ => runDefines s ops

/-- The definition displaced by the same-key redefinition in the C7
counterexample. -/
def c7OldDef : Definition := { fields := [], id := some 1, key := some "a" }

/-- The definition that replaces it. -/
def c7NewDef : Definition := { fields := [], id := some 2, key := some "a" }

/-- The schema after defining the key `"a"` twice. -/
def c7CexSchema : Schema :=
  match Schema.define (Schema.init "uint8") "a" [] with
  | .ok (_, s1) =>
    match Schema.define s1 "a" [] with
    | .ok (_, s2) => s2
    | .error _ => s1
  | .error _ => Schema.init "uint8"

/-- Define the key `"k"` (with no fields) `n` times in a row. -/
def defineTimes : Nat → Schema → Schema
  | 0, s => s
  | n + 1, s =>
    match Schema.define s "k" [] with
    | .ok (_, s2) => defineTimes n s2
    | .error _ => s

/-- The oversized-id definition used by the C8 witness. -/
def c8Def : Definition := { fields := [], id := some 256, key := some "k" }

/-- The original definition in the C9 witness. -/
def c9D1 : Definition := { fields := [], id := some 1, key := some "a" }

/-- The schema after the first C9 define. -/
def c9S1 : Schema :=
  { definitions := [("a", c9D1)], definitions_by_id := [(1, c9D1)],
    id_type := "uint8", next_definition_id := 2 }

/-- The redefined definition in the C9 witness. -/
def c9D2 : Definition :=
  { fields := [{ key := "b", type := "uint8", value_type := none, codec := .prim ⟨'B'⟩ }],
    id := some 2, key := some "a" }

/-- The schema after redefining the same key in the C9 witness. -/
def c9S2 : Schema :=
  { definitions := [("a", c9D2)], definitions_by_id := [(1, c9D1), (2, c9D2)],
    id_type := "uint8", next_definition_id := 3 }

/-- The schema of the C1 counterexample: one definition with a single
uint8-array field. -/
def c1CexSchema : Schema :=
  match Schema.define (Schema.init "uint8") "m"
    [{ key := "a", type := "array", value_type := some "uint8" }] with
  | .ok (_, s2) => s2
  | .error _ => Schema.init "uint8"

/-- The definition the C1 counterexample schema registers under `"m"`. -/
def c1CexDef : Definition :=
  { fields := [{ key := "a", type := "array", value_type := some "uint8",
                 codec := .array { value_format := 'B' } }],
    id := some 1, key := some "m" }

/-- The definition used in the C1 witness: one int16, one string, one
uint8-array field. -/
def c1WitnessDef : Definition :=
  { fields := [
      { key := "a", type := "int16", value_type := none, codec := .prim ⟨'h'⟩ },
      { key := "s", type := "string", value_type := none, codec := .str { size := none } },
      { key := "p", type := "array", value_type := some "uint8",
        codec := .array { value_format := 'B' } }],
    id := some 1, key := some "m" }

/-- The schema of the C1 witness. -/
def c1WitnessSchema : Schema :=
  { definitions := [("m", c1WitnessDef)], definitions_by_id := [(1, c1WitnessDef)],
    id_type := "uint8", next_definition_id := 2 }


mutual

theorem Value.beq_refl : ∀ a : Value, Value.beq a a = true
  | .vnone => rfl
  | .vbool a => by simp [Value.beq]
  | .vint a => by simp [Value.beq]
  | .vf32 a => by simp [Value.beq]
  | .vf64 a => by simp [Value.beq]
  | .vstr a => by simp [Value.beq]
  | .vbytes a => by simp [Value.beq]
  | .vlist a => Value.beqList_refl a
  | .vtuple a => Value.beqList_refl a

theorem Value.beqList_refl : ∀ as : List Value, Value.beqList as as = true
  | [] => rfl
  | a :: as => by
    simp only [Value.beqList, Bool.and_eq_true]
    exact ⟨Value.beq_refl a, Value.beqList_refl as⟩

end

theorem Value.beq_self (a : Value) : (a == a) = true := Value.beq_refl a

theorem packLE_length (w v : Nat) : (packLE w v).length = w := by
  induction w generalizing v with
  | zero => rfl
  | succ w ih => simp [packLE, ih]

theorem packNatRaw_length (w u : Nat) (le : Bool) : (packNatRaw w u le).length = w := by
  cases le <;> simp [packNatRaw, packLE_length]

theorem unpackLE_packLE (w v : Nat) (h : v < 256 ^ w) : unpackLE (packLE w v) = v := by
  induction w generalizing v with
  | zero =>
    simp only [pow_zero, Nat.lt_one_iff] at h
    simp [h, packLE, unpackLE]
  | succ w ih =>
    have hv : v / 256 < 256 ^ w := by
      rw [Nat.div_lt_iff_lt_mul (by norm_num)]
      calc v < 256 ^ (w + 1) := h
        _ = 256 ^ w * 256 := by ring
    simp only [packLE, unpackLE, ih _ hv]
    omega

theorem unpackNatRaw_packNatRaw (w v : Nat) (le : Bool) (h : v < 256 ^ w) :
    unpackNatRaw (packNatRaw w v le) le = v := by
  cases le <;> simp [packNatRaw, unpackNatRaw, unpackLE_packLE w v h]

theorem readAt_spec (pre enc suf : List Nat) :
    readAt (pre ++ enc ++ suf) pre.length enc.length = some enc := by
  unfold readAt
  rw [if_pos (by simp)]
  rw [List.append_assoc, List.drop_left, List.take_left]

theorem utf8Decode_encodeChar (c : Nat) (hc : validScalar c = true) (rest : List Nat) :
    utf8Decode (utf8EncodeChar c ++ rest) = (utf8Decode rest).map (c :: ·) := by
  have hv : c < 0x110000 ∧ ¬(0xD800 ≤ c ∧ c < 0xE000) := by
    simp only [validScalar, Bool.and_eq_true, Bool.not_eq_true', Bool.and_eq_false_iff,
      decide_eq_true_eq, decide_eq_false_iff_not] at hc
    omega
  by_cases h1 : c < 0x80
  · simp only [utf8EncodeChar, if_pos h1, List.cons_append, List.nil_append]
    have hchar : utf8DecodeChar c rest = some (c, 0) := by
      simp only [utf8DecodeChar]
      rw [if_pos h1]
    simp only [utf8Decode, hchar, List.drop_zero]
  · by_cases h2 : c < 0x800
    · simp only [utf8EncodeChar, if_neg h1, if_pos h2, List.cons_append, List.nil_append]
      have hchar : utf8DecodeChar (0xC0 + c / 64) ((0x80 + c % 64) :: rest) =
          some (c, 1) := by
        simp only [utf8DecodeChar]
        rw [if_neg (by omega), if_neg (by omega), if_pos (by omega), if_pos (by omega)]
        have : (0xC0 + c / 64 - 0xC0) * 64 + (0x80 + c % 64 - 0x80) = c := by omega
        rw [this]
      simp only [utf8Decode, hchar, List.drop_succ_cons, List.drop_zero]
    · by_cases h3 : c < 0x10000
      · simp only [utf8EncodeChar, if_neg h1, if_neg h2, if_pos h3, List.cons_append,
          List.nil_append]
        have hchar : utf8DecodeChar (0xE0 + c / 4096)
            ((0x80 + c / 64 % 64) :: (0x80 + c % 64) :: rest) = some (c, 2) := by
          simp only [utf8DecodeChar]
          rw [if_neg (by omega), if_neg (by omega), if_neg (by omega), if_pos (by omega),
            if_pos (by omega)]
          have : (0xE0 + c / 4096 - 0xE0) * 4096 + (0x80 + c / 64 % 64 - 0x80) * 64 +
              (0x80 + c % 64 - 0x80) = c := by omega
          rw [this]
        simp only [utf8Decode, hchar, List.drop_succ_cons, List.drop_zero]
      · simp only [utf8EncodeChar, if_neg h1, if_neg h2, if_neg h3, List.cons_append,
          List.nil_append]
        have hchar : utf8DecodeChar (0xF0 + c / 262144)
            ((0x80 + c / 4096 % 64) :: (0x80 + c / 64 % 64) :: (0x80 + c % 64) :: rest) =
            some (c, 3) := by
          simp only [utf8DecodeChar]
          rw [if_neg (by omega), if_neg (by omega), if_neg (by omega), if_neg (by omega),
            if_pos (by omega), if_pos (by omega)]
          have : (0xF0 + c / 262144 - 0xF0) * 262144 + (0x80 + c / 4096 % 64 - 0x80) * 4096 +
              (0x80 + c / 64 % 64 - 0x80) * 64 + (0x80 + c % 64 - 0x80) = c := by omega
          rw [this]
        simp only [utf8Decode, hchar, List.drop_succ_cons, List.drop_zero]

theorem utf8Decode_utf8Encode (cps : List Nat) (h : cps.all validScalar = true) :
    utf8Decode (utf8Encode cps) = some cps := by
  induction cps with
  | nil => simp [utf8Encode, utf8Decode]
  | cons c cs ih =>
    simp only [List.all_cons, Bool.and_eq_true] at h
    have hstep := utf8Decode_encodeChar c h.1 (utf8Encode cs)
    simp only [utf8Encode, List.map_cons, List.flatten_cons] at hstep ⊢
    simp only [utf8Encode] at ih
    rw [hstep, ih h.2, Option.map_some']

theorem readAt_at (pre enc suf : List Nat) (n : Nat) (h : enc.length = n) :
    readAt (pre ++ enc ++ suf) pre.length n = some enc := by
  subst h; exact readAt_spec pre enc suf

theorem unpackNatRaw_singleton (x : Nat) (le : Bool) : unpackNatRaw [x] le = x := by
  cases le <;> simp [unpackNatRaw, unpackLE]

theorem intRange_cases (fmt : Char) (lo hi : Int) (h : intRange fmt = some (lo, hi)) :
    (fmt = 'b' ∧ lo = -128 ∧ hi = 127) ∨ (fmt = 'B' ∧ lo = 0 ∧ hi = 255) ∨
    (fmt = 'h' ∧ lo = -32768 ∧ hi = 32767) ∨ (fmt = 'H' ∧ lo = 0 ∧ hi = 65535) ∨
    (fmt = 'i' ∧ lo = -2147483648 ∧ hi = 2147483647) ∨
    (fmt = 'I' ∧ lo = 0 ∧ hi = 4294967295) := by
  unfold intRange at h
  split at h <;> simp_all

/-- An in-range scalar packs successfully, to exactly `formatSize` bytes, and
unpacking those bytes at any offset restores the value. -/
theorem scalar_roundtrip (fmt : Char) (v : Value) (le : Bool) (hwf : scalarWF fmt v = true)
    (pre suf : List Nat) :
    ∃ bs, packValue fmt v le = .ok bs ∧ bs.length = formatSize fmt ∧
      unpackValueFrom fmt (pre ++ bs ++ suf) pre.length le = .ok v := by
  unfold scalarWF at hwf
  split at hwf
  · -- boolean: fmt = '?', v = vbool b
    rename_i b
    refine ⟨[if b then 1 else 0], rfl, by cases b <;> rfl, ?_⟩
    unfold unpackValueFrom
    rw [readAt_at pre [if b then 1 else 0] suf (formatSize '?') (by cases b <;> rfl)]
    show Except.ok (Value.vbool (unpackNatRaw [if b then 1 else 0] le != 0)) =
      Except.ok (Value.vbool b)
    rw [unpackNatRaw_singleton]
    cases b <;> rfl
  · -- float32: fmt = 'f', v = vf32 bits
    rename_i bits
    simp only [decide_eq_true_eq] at hwf
    refine ⟨packNatRaw 4 bits le, ?_, packNatRaw_length 4 bits le, ?_⟩
    · show (if bits < 4294967296 then Except.ok (packNatRaw 4 bits le)
        else Except.error JErr.structError) = Except.ok (packNatRaw 4 bits le)
      rw [if_pos hwf]
    · unfold unpackValueFrom
      rw [readAt_at pre (packNatRaw 4 bits le) suf (formatSize 'f') (by simp [packNatRaw_length, formatSize])]
      show Except.ok (Value.vf32 (unpackNatRaw (packNatRaw 4 bits le) le)) =
        Except.ok (Value.vf32 bits)
      rw [unpackNatRaw_packNatRaw 4 bits le (by norm_num at hwf ⊢; omega)]
  · -- float64: fmt = 'd', v = vf64 bits
    rename_i bits
    simp only [decide_eq_true_eq] at hwf
    refine ⟨packNatRaw 8 bits le, ?_, packNatRaw_length 8 bits le, ?_⟩
    · show (if bits < 18446744073709551616 then Except.ok (packNatRaw 8 bits le)
        else Except.error JErr.structError) = Except.ok (packNatRaw 8 bits le)
      rw [if_pos hwf]
    · unfold unpackValueFrom
      rw [readAt_at pre (packNatRaw 8 bits le) suf (formatSize 'd') (by simp [packNatRaw_length, formatSize])]
      show Except.ok (Value.vf64 (unpackNatRaw (packNatRaw 8 bits le) le)) =
        Except.ok (Value.vf64 bits)
      rw [unpackNatRaw_packNatRaw 8 bits le (by norm_num at hwf ⊢; omega)]
  · -- integer formats: v = vint n, intRange fmt = some (lo, hi)
    rename_i n
    split at hwf
    · rename_i lo hi heq
      simp only [Bool.and_eq_true, decide_eq_true_eq] at hwf
      obtain ⟨hlo, hhi⟩ := hwf
      rcases intRange_cases _ lo hi heq with hfmt | hfmt | hfmt | hfmt | hfmt | hfmt <;>
        obtain ⟨rfl, rfl, rfl⟩ := hfmt
      · -- int8
        refine ⟨packNatRaw 1 ((n % 256).toNat) le, ?_, packNatRaw_length _ _ le, ?_⟩
        · show (if (-128 : Int) ≤ n ∧ n ≤ 127 then Except.ok (packNatRaw 1 ((n % 256).toNat) le)
            else Except.error JErr.structError) = Except.ok (packNatRaw 1 ((n % 256).toNat) le)
          rw [if_pos ⟨hlo, hhi⟩]
        · unfold unpackValueFrom
          rw [readAt_at pre (packNatRaw 1 ((n % 256).toNat) le) suf (formatSize 'b')
            (by simp [packNatRaw_length, formatSize])]
          show Except.ok (Value.vint
              (if unpackNatRaw (packNatRaw 1 ((n % 256).toNat) le) le < 128
                then (unpackNatRaw (packNatRaw 1 ((n % 256).toNat) le) le : Int)
                else (unpackNatRaw (packNatRaw 1 ((n % 256).toNat) le) le : Int) - 256)) =
            Except.ok (Value.vint n)
          rw [unpackNatRaw_packNatRaw 1 _ le (by omega)]
          have hval : (if (n % 256).toNat < 128 then ((n % 256).toNat : Int)
              else ((n % 256).toNat : Int) - 256) = n := by omega
          rw [hval]
      · -- uint8
        refine ⟨packNatRaw 1 ((n % 256).toNat) le, ?_, packNatRaw_length _ _ le, ?_⟩
        · show (if (0 : Int) ≤ n ∧ n ≤ 255 then Except.ok (packNatRaw 1 ((n % 256).toNat) le)
            else Except.error JErr.structError) = Except.ok (packNatRaw 1 ((n % 256).toNat) le)
          rw [if_pos ⟨hlo, hhi⟩]
        · unfold unpackValueFrom
          rw [readAt_at pre (packNatRaw 1 ((n % 256).toNat) le) suf (formatSize 'B')
            (by simp [packNatRaw_length, formatSize])]
          show Except.ok (Value.vint (unpackNatRaw (packNatRaw 1 ((n % 256).toNat) le) le)) =
            Except.ok (Value.vint n)
          rw [unpackNatRaw_packNatRaw 1 _ le (by omega)]
          have hval : (((n % 256).toNat : Int)) = n := by omega
          rw [hval]
      · -- int16
        refine ⟨packNatRaw 2 ((n % 65536).toNat) le, ?_, packNatRaw_length _ _ le, ?_⟩
        · show (if (-32768 : Int) ≤ n ∧ n ≤ 32767
              then Except.ok (packNatRaw 2 ((n % 65536).toNat) le)
              else Except.error JErr.structError) =
            Except.ok (packNatRaw 2 ((n % 65536).toNat) le)
          rw [if_pos ⟨hlo, hhi⟩]
        · unfold unpackValueFrom
          rw [readAt_at pre (packNatRaw 2 ((n % 65536).toNat) le) suf (formatSize 'h')
            (by simp [packNatRaw_length, formatSize])]
          show Except.ok (Value.vint
              (if unpackNatRaw (packNatRaw 2 ((n % 65536).toNat) le) le < 32768
                then (unpackNatRaw (packNatRaw 2 ((n % 65536).toNat) le) le : Int)
                else (unpackNatRaw (packNatRaw 2 ((n % 65536).toNat) le) le : Int) - 65536)) =
            Except.ok (Value.vint n)
          rw [unpackNatRaw_packNatRaw 2 _ le (by norm_num; omega)]
          have hval : (if (n % 65536).toNat < 32768 then ((n % 65536).toNat : Int)
              else ((n % 65536).toNat : Int) - 65536) = n := by omega
          rw [hval]
      · -- uint16
        refine ⟨packNatRaw 2 ((n % 65536).toNat) le, ?_, packNatRaw_length _ _ le, ?_⟩
        · show (if (0 : Int) ≤ n ∧ n ≤ 65535 then Except.ok (packNatRaw 2 ((n % 65536).toNat) le)
            else Except.error JErr.structError) = Except.ok (packNatRaw 2 ((n % 65536).toNat) le)
          rw [if_pos ⟨hlo, hhi⟩]
        · unfold unpackValueFrom
          rw [readAt_at pre (packNatRaw 2 ((n % 65536).toNat) le) suf (formatSize 'H')
            (by simp [packNatRaw_length, formatSize])]
          show Except.ok (Value.vint (unpackNatRaw (packNatRaw 2 ((n % 65536).toNat) le) le)) =
            Except.ok (Value.vint n)
          rw [unpackNatRaw_packNatRaw 2 _ le (by norm_num; omega)]
          have hval : (((n % 65536).toNat : Int)) = n := by omega
          rw [hval]
      · -- int32
        refine ⟨packNatRaw 4 ((n % 4294967296).toNat) le, ?_, packNatRaw_length _ _ le, ?_⟩
        · show (if (-2147483648 : Int) ≤ n ∧ n ≤ 2147483647
              then Except.ok (packNatRaw 4 ((n % 4294967296).toNat) le)
              else Except.error JErr.structError) =
            Except.ok (packNatRaw 4 ((n % 4294967296).toNat) le)
          rw [if_pos ⟨hlo, hhi⟩]
        · unfold unpackValueFrom
          rw [readAt_at pre (packNatRaw 4 ((n % 4294967296).toNat) le) suf (formatSize 'i')
            (by simp [packNatRaw_length, formatSize])]
          show Except.ok (Value.vint
              (if unpackNatRaw (packNatRaw 4 ((n % 4294967296).toNat) le) le < 2147483648
                then (unpackNatRaw (packNatRaw 4 ((n % 4294967296).toNat) le) le : Int)
                else (unpackNatRaw (packNatRaw 4 ((n % 4294967296).toNat) le) le : Int)
                  - 4294967296)) =
            Except.ok (Value.vint n)
          rw [unpackNatRaw_packNatRaw 4 _ le (by norm_num; omega)]
          have hval : (if (n % 4294967296).toNat < 2147483648 then ((n % 4294967296).toNat : Int)
              else ((n % 4294967296).toNat : Int) - 4294967296) = n := by omega
          rw [hval]
      · -- uint32
        refine ⟨packNatRaw 4 ((n % 4294967296).toNat) le, ?_, packNatRaw_length _ _ le, ?_⟩
        · show (if (0 : Int) ≤ n ∧ n ≤ 4294967295
              then Except.ok (packNatRaw 4 ((n % 4294967296).toNat) le)
              else Except.error JErr.structError) =
            Except.ok (packNatRaw 4 ((n % 4294967296).toNat) le)
          rw [if_pos ⟨hlo, hhi⟩]
        · unfold unpackValueFrom
          rw [readAt_at pre (packNatRaw 4 ((n % 4294967296).toNat) le) suf (formatSize 'I')
            (by simp [packNatRaw_length, formatSize])]
          show Except.ok
              (Value.vint (unpackNatRaw (packNatRaw 4 ((n % 4294967296).toNat) le) le)) =
            Except.ok (Value.vint n)
          rw [unpackNatRaw_packNatRaw 4 _ le (by norm_num; omega)]
          have hval : (((n % 4294967296).toNat : Int)) = n := by omega
          rw [hval]
    · exact Bool.noConfusion hwf
  · -- remaining shapes are not well-formed
    exact Bool.noConfusion hwf

theorem okBind {ε α β : Type} (a : α) (f : α → Except ε β) :
    ((Except.ok a : Except ε α) >>= f) = f a := rfl

theorem errBind {ε α β : Type} (e : ε) (f : α → Except ε β) :
    ((Except.error e : Except ε α) >>= f) = Except.error e := rfl

/-- Version of `scalar_roundtrip` with the embedding context quantified inside the
existential, so the packed bytes can be decoded at every offset. -/
theorem scalar_roundtrip_all (fmt : Char) (v : Value) (le : Bool)
    (hwf : scalarWF fmt v = true) :
    ∃ bs, packValue fmt v le = .ok bs ∧ bs.length = formatSize fmt ∧
      ∀ pre suf, unpackValueFrom fmt (pre ++ bs ++ suf) pre.length le = .ok v := by
  obtain ⟨bs, hp, hl, _⟩ := scalar_roundtrip fmt v le hwf [] []
  refine ⟨bs, hp, hl, fun pre suf => ?_⟩
  obtain ⟨bs2, hp2, _, hd⟩ := scalar_roundtrip fmt v le hwf pre suf
  rw [hp] at hp2
  injection hp2 with h
  rw [h]
  exact hd

/-- A list of in-range scalars packs successfully, to `count × formatSize`
bytes, and unpacking that many repetitions at any offset restores the list. -/
theorem packSeq_roundtrip (fmt : Char) (le : Bool) (vs : List Value)
    (hwf : vs.all (scalarWF fmt) = true) :
    ∃ bs, packSeq fmt le vs = .ok bs ∧ bs.length = vs.length * formatSize fmt ∧
      ∀ pre suf, unpackSeqFrom fmt le vs.length (pre ++ bs ++ suf) pre.length = .ok vs := by
  induction vs with
  | nil => exact ⟨[], rfl, by simp, fun pre suf => rfl⟩
  | cons v vs ih =>
    simp only [List.all_cons, Bool.and_eq_true] at hwf
    obtain ⟨bsr, hpr, hlenr, hunr⟩ := ih hwf.2
    obtain ⟨bsv, hpv, hlenv, hdecv⟩ := scalar_roundtrip_all fmt v le hwf.1
    refine ⟨bsv ++ bsr, ?_, ?_, ?_⟩
    · simp only [packSeq, hpv, okBind, hpr]
      rfl
    · simp only [List.length_append, List.length_cons, hlenv, hlenr]
      ring
    · intro pre suf
      have hv := hdecv pre (bsr ++ suf)
      simp only [List.append_assoc] at hv
      have hrest := hunr (pre ++ bsv) suf
      simp only [List.append_assoc, List.length_append, hlenv] at hrest
      simp only [List.length_cons, List.append_assoc]
      show unpackSeqFrom fmt le (vs.length + 1) (pre ++ (bsv ++ (bsr ++ suf))) pre.length =
        Except.ok (v :: vs)
      simp only [unpackSeqFrom, hv, okBind, hrest]
      rfl

/-- Packing of an in-range length by `packLen` succeeds and the prefix reads back at
every offset. -/
theorem packLen_roundtrip (n : Nat) (le : Bool) (h : n < 4294967296) :
    ∃ bs, packLen n le = .ok bs ∧ bs.length = 4 ∧
      ∀ pre suf, unpackLenFrom (pre ++ bs ++ suf) pre.length le = .ok n := by
  refine ⟨packNatRaw 4 n le, by unfold packLen; rw [if_pos h], packNatRaw_length 4 n le, ?_⟩
  intro pre suf
  unfold unpackLenFrom
  rw [readAt_at pre (packNatRaw 4 n le) suf 4 (packNatRaw_length 4 n le)]
  show Except.ok (unpackNatRaw (packNatRaw 4 n le) le) = Except.ok n
  rw [unpackNatRaw_packNatRaw 4 n le (by norm_num; omega)]

/-- An in-range tuple of in-range scalars round-trips through `ArrayCodec`,
and the `size` attribute the decode sets equals the encoded byte count. -/
theorem arrayCodec_roundtrip (a : ArrayCodec) (vs : List Value) (le : Bool)
    (hlen : vs.length < 4294967296) (hwf : vs.all (scalarWF a.value_format) = true) :
    ∃ bs, a.dumps vs le = .ok bs ∧
      ∀ pre suf, a.loads (pre ++ bs ++ suf) pre.length le =
        .ok (vs, { a with size := some bs.length }) := by
  obtain ⟨lenB, hplen, hlenB, hrdlen⟩ := packLen_roundtrip vs.length le hlen
  obtain ⟨body, hpbody, hlenbody, hrdbody⟩ := packSeq_roundtrip a.value_format le vs hwf
  refine ⟨lenB ++ body, ?_, ?_⟩
  · unfold ArrayCodec.dumps
    simp only [hplen, okBind, hpbody]
    rfl
  · intro pre suf
    have hread := hrdlen pre (body ++ suf)
    simp only [List.append_assoc] at hread
    unfold ArrayCodec.loads
    simp only [List.append_assoc]
    rw [hread]
    simp only [okBind]
    by_cases hz : vs.length = 0
    · rw [if_neg (by omega)]
      have hvs : vs = [] := List.length_eq_zero.mp hz
      subst hvs
      have hbody : body = [] := by
        rw [List.length_eq_zero.symm]
        simpa using hlenbody
      subst hbody
      have h4 : (lenB ++ ([] : List Nat)).length = 4 := by simp [hlenB]
      rw [h4]
      rfl
    · rw [if_pos hz]
      have hrest := hrdbody (pre ++ lenB) suf
      simp only [List.append_assoc, List.length_append, hlenB] at hrest
      rw [hrest]
      simp only [okBind]
      have hsz : vs.length * formatSize a.value_format + 4 = (lenB ++ body).length := by
        simp only [List.length_append, hlenB, hlenbody]
        ring
      rw [hsz]
      rfl

/-- A non-empty UTF-8 encoding and its codepoints are non-empty together. -/
theorem utf8EncodeChar_ne_nil (c : Nat) : utf8EncodeChar c ≠ [] := by
  unfold utf8EncodeChar
  split_ifs <;> simp

/-- Encodable text round-trips through `StringCodec`, and the `size`
attribute the decode sets equals the encoded byte count. -/
theorem stringCodec_roundtrip (sc : StringCodec) (cps : List Nat) (le : Bool)
    (hv : cps.all validScalar = true) (hlen : (utf8Encode cps).length < 4294967296) :
    ∃ bs, StringCodec.dumps sc (.vstr cps) le = .ok bs ∧
      ∀ pre suf, sc.loads (pre ++ bs ++ suf) pre.length le =
        .ok (.vstr cps, { sc with size := some bs.length }) := by
  obtain ⟨lenB, hplen, hlenB, hrdlen⟩ := packLen_roundtrip (utf8Encode cps).length le hlen
  refine ⟨lenB ++ utf8Encode cps, ?_, ?_⟩
  · show (if cps.all validScalar = true then
        (packLen (utf8Encode cps).length le) >>= (fun lenBytes => pure (lenBytes ++ utf8Encode cps))
      else Except.error JErr.unicodeEncodeError) = Except.ok (lenB ++ utf8Encode cps)
    rw [if_pos hv]
    simp only [hplen, okBind]
    rfl
  · intro pre suf
    have hread := hrdlen pre (utf8Encode cps ++ suf)
    simp only [List.append_assoc] at hread
    unfold StringCodec.loads
    simp only [List.append_assoc]
    rw [hread]
    simp only [okBind]
    by_cases hz : (utf8Encode cps).length = 0
    · rw [if_neg (by omega)]
      have henc : utf8Encode cps = [] := List.length_eq_zero.mp hz
      have hcps : cps = [] := by
        cases cps with
        | nil => rfl
        | cons c cs =>
          exfalso
          apply utf8EncodeChar_ne_nil c
          have : utf8EncodeChar c ++ (cs.map utf8EncodeChar).flatten = [] := by
            simpa [utf8Encode] using henc
          exact List.append_eq_nil.mp this |>.1
      subst hcps
      simp only [utf8Encode, List.map_nil, List.flatten_nil] at hz ⊢
      have h4 : (lenB ++ ([] : List Nat)).length = 4 := by simp [hlenB]
      rw [h4]
      rfl
    · rw [if_pos hz]
      have hbytes : readAt (pre ++ (lenB ++ (utf8Encode cps ++ suf))) (pre.length + 4)
          (utf8Encode cps).length = some (utf8Encode cps) := by
        have := readAt_at (pre ++ lenB) (utf8Encode cps) suf (utf8Encode cps).length rfl
        simpa [List.append_assoc, hlenB] using this
      rw [hbytes]
      have hsz : (utf8Encode cps).length + 4 = (lenB ++ utf8Encode cps).length := by
        simp only [List.length_append, hlenB]
        ring
      show (match utf8Decode (utf8Encode cps) with
          | some cps2 => pure (Value.vstr cps2,
              ({ size := some ((utf8Encode cps).length + 4) } : StringCodec))
          | none => Except.error JErr.unicodeDecodeError) =
        Except.ok (Value.vstr cps, { sc with size := some (lenB ++ utf8Encode cps).length })
      rw [utf8Decode_utf8Encode cps hv, hsz]
      rfl

/-- A well-formed field value encodes successfully through the field codec
and decodes back at any offset, with the codec state's `size` attribute set
to the encoded byte count. -/
theorem fieldCodec_roundtrip (fc : FieldCodec) (v : Value) (le : Bool)
    (hwf : fieldWF fc v = true) :
    ∃ bs fc2, fc.dumps v le = .ok bs ∧ fc2.size = some bs.length ∧
      ∀ pre suf, fc.loads (pre ++ bs ++ suf) pre.length le = .ok (v, fc2) := by
  cases fc with
  | prim c =>
    obtain ⟨bs, hp, hl, hd⟩ := scalar_roundtrip_all c.format v le hwf
    refine ⟨bs, .prim c, hp, ?_, fun pre suf => ?_⟩
    · show some (formatSize c.format) = some bs.length
      rw [hl]
    · show Except.map (fun v => (v, FieldCodec.prim c))
          (c.loads (pre ++ bs ++ suf) pre.length le) =
        Except.ok (v, FieldCodec.prim c)
      unfold Codec.loads
      rw [hd pre suf]
      rfl
  | array a =>
    cases v
    case vtuple vs =>
      have hwf2 : (decide (vs.length < 4294967296) && vs.all (scalarWF a.value_format)) =
        true := hwf
      simp only [Bool.and_eq_true, decide_eq_true_eq] at hwf2
      obtain ⟨bs, hp, hd⟩ := arrayCodec_roundtrip a vs le hwf2.1 hwf2.2
      refine ⟨bs, .array { a with size := some bs.length }, hp, rfl, fun pre suf => ?_⟩
      show Except.map (fun p => (Value.vtuple p.1, FieldCodec.array p.2))
          (a.loads (pre ++ bs ++ suf) pre.length le) =
        Except.ok (Value.vtuple vs, FieldCodec.array { a with size := some bs.length })
      rw [hd pre suf]
      rfl
    all_goals exact Bool.noConfusion hwf
  | str sc =>
    cases v
    case vstr cps =>
      have hwf2 : (cps.all validScalar && decide ((utf8Encode cps).length < 4294967296)) =
        true := hwf
      simp only [Bool.and_eq_true, decide_eq_true_eq] at hwf2
      obtain ⟨bs, hp, hd⟩ := stringCodec_roundtrip sc cps le hwf2.1 hwf2.2
      refine ⟨bs, .str { sc with size := some bs.length }, hp, rfl, fun pre suf => ?_⟩
      show Except.map (fun p => (p.1, FieldCodec.str p.2))
          (sc.loads (pre ++ bs ++ suf) pre.length le) =
        Except.ok (Value.vstr cps, FieldCodec.str { sc with size := some bs.length })
      rw [hd pre suf]
      rfl
    all_goals exact Bool.noConfusion hwf

theorem alistGet_alistSet {κ α : Type} [DecidableEq κ] (l : List (κ × α)) (k k2 : κ) (v : α) :
    alistGet (alistSet l k v) k2 = if k = k2 then some v else alistGet l k2 := by
  induction l with
  | nil => simp [alistSet, alistGet]
  | cons hd tl ih =>
    obtain ⟨k1, v1⟩ := hd
    simp only [alistSet]
    by_cases h1 : k1 = k
    · subst h1
      rw [if_pos rfl]
      by_cases h2 : k1 = k2 <;> simp [alistGet, h2]
    · rw [if_neg h1]
      by_cases h2 : k1 = k2
      · subst h2
        have hne : ¬(k = k1) := fun h => h1 h.symm
        simp [alistGet, hne]
      · simp [alistGet, h2, ih]

theorem alistGet_mem {κ α : Type} [DecidableEq κ] (l : List (κ × α)) (k : κ) (v : α)
    (h : alistGet l k = some v) : (k, v) ∈ l := by
  induction l with
  | nil => simp [alistGet] at h
  | cons hd tl ih =>
    obtain ⟨k1, v1⟩ := hd
    simp only [alistGet] at h
    by_cases h1 : k1 = k
    · rw [if_pos h1] at h
      injection h with h
      simp [h1, h]
    · rw [if_neg h1] at h
      exact List.mem_cons_of_mem _ (ih h)

theorem optValue_beq_self (x : Option Value) : (x == x) = true := by
  cases x with
  | none => rfl
  | some v => exact Value.beq_self v

theorem dictEqB_of_pointwise (a b : Dict) (h : ∀ k, alistGet a k = alistGet b k) :
    dictEqB a b = true := by
  unfold dictEqB
  simp only [Bool.and_eq_true, List.all_eq_true]
  constructor
  · intro kv _
    rw [h kv.1]
    exact optValue_beq_self _
  · intro kv _
    rw [h kv.1]
    exact optValue_beq_self _

theorem alistGet_setFields (data : Dict) (fields : List Field) (values : Dict) (k : String) :
    alistGet (setFields data fields values) k =
      if fields.any (fun f => f.key == k) then some ((alistGet data k).getD .vnone)
      else alistGet values k := by
  induction fields generalizing values with
  | nil => simp [setFields]
  | cons f fs ih =>
    simp only [setFields, List.foldl_cons, List.any_cons, Bool.or_eq_true, beq_iff_eq]
    rw [show (fs.foldl (fun acc g => alistSet acc g.key ((alistGet data g.key).getD .vnone))
        (alistSet values f.key ((alistGet data f.key).getD .vnone))) =
      setFields data fs (alistSet values f.key ((alistGet data f.key).getD .vnone)) from rfl]
    rw [ih]
    by_cases hany : (fs.any fun g => g.key == k) = true
    · simp [hany]
    · by_cases hk : f.key = k
      · subst hk
        simp [hany, alistGet_alistSet]
      · simp [hany, hk, alistGet_alistSet]

/-- The encode/decode loops of `Definition`: a record supplying an in-range
value for every field encodes successfully, and decoding the concatenation at
any offset accumulates exactly the fields' values in order. -/
theorem loadFields_dumpFields (data : Dict) (le : Bool) (fields : List Field)
    (hwf : (fields.all fun f => match alistGet data f.key with
        | some v => fieldWF f.codec v
        | none => false) = true) :
    ∃ bs, dumpFields data le fields = .ok bs ∧
      ∀ pre suf values, loadFields (pre ++ bs ++ suf) le fields pre.length values =
        .ok (setFields data fields values) := by
  induction fields with
  | nil => exact ⟨[], rfl, fun pre suf values => rfl⟩
  | cons f fs ih =>
    simp only [List.all_cons, Bool.and_eq_true] at hwf
    obtain ⟨hwf1, hwf2⟩ := hwf
    obtain ⟨bsr, hpr, hldr⟩ := ih hwf2
    cases hv : alistGet data f.key with
    | none => rw [hv] at hwf1; exact Bool.noConfusion hwf1
    | some v =>
      rw [hv] at hwf1
      obtain ⟨bsf, fc2, hp, hsz, hld⟩ := fieldCodec_roundtrip f.codec v le hwf1
      refine ⟨bsf ++ bsr, ?_, ?_⟩
      · simp only [dumpFields, hv, okBind, hp, hpr]
        rfl
      · intro pre suf values
        have hone := hld pre (bsr ++ suf)
        simp only [List.append_assoc] at hone
        have hrest := hldr (pre ++ bsf) suf (alistSet values f.key v)
        simp only [List.append_assoc, List.length_append] at hrest
        simp only [List.append_assoc]
        simp only [loadFields, hone, okBind, hsz]
        rw [show setFields data (f :: fs) values =
          setFields data fs (alistSet values f.key ((alistGet data f.key).getD .vnone)) from rfl]
        simp only [hv, Option.getD_some]
        exact hrest

/-- The reading of `recordWFB` as facts about lookups. -/
theorem recordWFB_spec (d : Definition) (record : Dict) (h : recordWFB d record = true) :
    (∀ f ∈ d.fields, ∃ v, alistGet record f.key = some v ∧ fieldWF f.codec v = true) ∧
    (∀ kv ∈ record, ∃ f ∈ d.fields, f.key = kv.1) := by
  unfold recordWFB at h
  simp only [Bool.and_eq_true, List.all_eq_true] at h
  constructor
  · intro f hf
    have := h.1 f hf
    cases hv : alistGet record f.key with
    | none => rw [hv] at this; exact Bool.noConfusion this
    | some v => rw [hv] at this; exact ⟨v, rfl, this⟩
  · intro kv hkv
    have := h.2 kv hkv
    simp only [List.any_eq_true, beq_iff_eq] at this
    exact this

/-- The record `Definition.loads` rebuilds from a well-formed record's
encoding is pointwise equal to the original record. -/
theorem setFields_pointwise (d : Definition) (record : Dict)
    (hwf : recordWFB d record = true) (k : String) :
    alistGet (setFields record d.fields []) k = alistGet record k := by
  obtain ⟨h1, h2⟩ := recordWFB_spec d record hwf
  rw [alistGet_setFields]
  by_cases hany : (d.fields.any fun f => f.key == k) = true
  · rw [if_pos hany]
    simp only [List.any_eq_true, beq_iff_eq] at hany
    obtain ⟨f, hf, hfk⟩ := hany
    obtain ⟨v, hv, _⟩ := h1 f hf
    rw [hfk] at hv
    rw [hv]
    rfl
  · rw [if_neg hany]
    cases hk : alistGet record k with
    | none => simp [alistGet]
    | some v =>
      exfalso
      apply hany
      obtain ⟨f, hf, hfk⟩ := h2 (k, v) (alistGet_mem record k v hk)
      simp only [List.any_eq_true, beq_iff_eq]
      exact ⟨f, hf, hfk⟩

/-- Core of the dump/load round trip through a `Schema`, for any id codec
that handles the definition's id exactly. -/
theorem schema_roundtrip_core (s : Schema) (key : String) (d : Definition) (i : Nat)
    (record : Dict) (c : Codec)
    (hent : _codecs s.id_type = some (.prim c))
    (hd : alistGet s.definitions key = some d)
    (hid : d.id = some i)
    (hby : alistGet s.definitions_by_id i = some d)
    (hsw : scalarWF c.format (.vint i) = true)
    (hwf : recordWFB d record = true) :
    ∃ bs out, s.dumps key record = .ok bs ∧ s.loads bs = .ok out ∧
      dictEqB out record = true := by
  obtain ⟨idB, hpId, hlenId, hdecId⟩ := scalar_roundtrip_all c.format (.vint i) false hsw
  have hwf1 : (d.fields.all fun f => match alistGet record f.key with
      | some v => fieldWF f.codec v
      | none => false) = true := by
    unfold recordWFB at hwf
    simp only [Bool.and_eq_true] at hwf
    exact hwf.1
  obtain ⟨bodyB, hpb, hlb⟩ := loadFields_dumpFields record d.little_endian d.fields hwf1
  refine ⟨idB ++ bodyB, setFields record d.fields [], ?_, ?_, ?_⟩
  · unfold Schema.dumps
    rw [hd, hent]
    show ((FieldCodec.prim c).dumps
        (match d.id with | some i => Value.vint i | none => Value.vnone) false >>=
      fun idBytes => (d.dumps record >>= fun body => pure (idBytes ++ body))) =
      Except.ok (idB ++ bodyB)
    rw [hid]
    show (Codec.dumps c (Value.vint i) false >>=
      fun idBytes => (d.dumps record >>= fun body => pure (idBytes ++ body))) =
      Except.ok (idB ++ bodyB)
    unfold Codec.dumps Definition.dumps
    simp only [hpId, okBind, hpb]
    rfl
  · unfold Schema.loads
    rw [hent]
    have hdec0 := hdecId [] bodyB
    simp only [List.nil_append, List.length_nil] at hdec0
    have hkey : (idKeyOf (.vint i)).bind (alistGet s.definitions_by_id) = some d := by
      show (if ((i : Int) < 0) then none else some ((i : Int)).toNat).bind
        (alistGet s.definitions_by_id) = some d
      rw [if_neg (by omega)]
      show alistGet s.definitions_by_id ((i : Int)).toNat = some d
      simpa using hby
    have hloadsId : (FieldCodec.prim c).loads (idB ++ bodyB) 0 false =
        .ok (Value.vint i, .prim c) := by
      show (Codec.loads c (idB ++ bodyB) 0 false).map (fun v => (v, FieldCodec.prim c)) =
        Except.ok (Value.vint i, FieldCodec.prim c)
      unfold Codec.loads
      rw [hdec0]
      rfl
    show ((FieldCodec.prim c).loads (idB ++ bodyB) 0 false >>= fun p =>
        match (idKeyOf p.1).bind (alistGet s.definitions_by_id) with
        | none => Except.error JErr.keyError
        | some definition =>
          match p.2.size with
          | some n => definition.loads (idB ++ bodyB) n
          | none => Except.error JErr.attributeError) =
      Except.ok (setFields record d.fields [])
    rw [hloadsId]
    show (match (idKeyOf (Value.vint i)).bind (alistGet s.definitions_by_id) with
        | none => Except.error JErr.keyError
        | some definition =>
          match (FieldCodec.prim c).size with
          | some n => definition.loads (idB ++ bodyB) n
          | none => Except.error JErr.attributeError) =
      Except.ok (setFields record d.fields [])
    rw [hkey]
    show d.loads (idB ++ bodyB) c.size = Except.ok (setFields record d.fields [])
    have hload := hlb idB [] []
    simp only [List.append_nil] at hload
    unfold Definition.loads
    have hcs : c.size = idB.length := hlenId.symm
    rw [hcs]
    exact hload
  · exact dictEqB_of_pointwise _ _ (setFields_pointwise d record hwf)

theorem packValue_out_of_range (fmt : Char) (lo hi n : Int) (le : Bool)
    (hr : intRange fmt = some (lo, hi)) (hout : n < lo ∨ hi < n) :
    packValue fmt (.vint n) le = .error .structError := by
  rcases intRange_cases fmt lo hi hr with hfmt | hfmt | hfmt | hfmt | hfmt | hfmt <;>
    obtain ⟨rfl, rfl, rfl⟩ := hfmt
  · show (if (-128 : Int) ≤ n ∧ n ≤ 127 then Except.ok (packNatRaw 1 ((n % 256).toNat) le)
      else Except.error JErr.structError) = Except.error JErr.structError
    rw [if_neg (by omega)]
  · show (if (0 : Int) ≤ n ∧ n ≤ 255 then Except.ok (packNatRaw 1 ((n % 256).toNat) le)
      else Except.error JErr.structError) = Except.error JErr.structError
    rw [if_neg (by omega)]
  · show (if (-32768 : Int) ≤ n ∧ n ≤ 32767
        then Except.ok (packNatRaw 2 ((n % 65536).toNat) le)
        else Except.error JErr.structError) = Except.error JErr.structError
    rw [if_neg (by omega)]
  · show (if (0 : Int) ≤ n ∧ n ≤ 65535 then Except.ok (packNatRaw 2 ((n % 65536).toNat) le)
      else Except.error JErr.structError) = Except.error JErr.structError
    rw [if_neg (by omega)]
  · show (if (-2147483648 : Int) ≤ n ∧ n ≤ 2147483647
        then Except.ok (packNatRaw 4 ((n % 4294967296).toNat) le)
        else Except.error JErr.structError) = Except.error JErr.structError
    rw [if_neg (by omega)]
  · show (if (0 : Int) ≤ n ∧ n ≤ 4294967295
        then Except.ok (packNatRaw 4 ((n % 4294967296).toNat) le)
        else Except.error JErr.structError) = Except.error JErr.structError
    rw [if_neg (by omega)]

theorem unpackSeqFrom_length (fmt : Char) (le : Bool) (n : Nat) (s : List Nat) (off : Nat)
    (vs : List Value) (h : unpackSeqFrom fmt le n s off = .ok vs) : vs.length = n := by
  induction n generalizing off vs with
  | zero =>
    unfold unpackSeqFrom at h
    injection h with h
    rw [← h]
    rfl
  | succ n ih =>
    unfold unpackSeqFrom at h
    cases h1 : unpackValueFrom fmt s off le with
    | error e => rw [h1, errBind] at h; exact Except.noConfusion h
    | ok v =>
      rw [h1, okBind] at h
      cases h2 : unpackSeqFrom fmt le n s (off + formatSize fmt) with
      | error e => rw [h2, errBind] at h; exact Except.noConfusion h
      | ok rest =>
        rw [h2, okBind] at h
        injection h with h
        rw [← h]
        simp [ih _ _ h2]

/-- Claim C2 — counterexample.  The string codec singleton is not
stateless: its `loads` assigns the `size` attribute (absent on a fresh
codec), so the codec object's own state changes across a decode call. -/
theorem c2_counterexample :
    StringCodec.loads { size := none } [0, 0, 0, 0] 0 false =
      .ok (.vstr [], { size := some 4 }) ∧
    ({ size := some 4 } : StringCodec) ≠ { size := none } :=
  ⟨rfl, by decide⟩

/-- Claim C2 (amended).  Primitive codecs carry no mutable state, but
`ArrayCodec.loads` and `StringCodec.loads` each write the consumed byte count
(4-byte prefix plus payload) into the codec's `size` attribute — the state
`Definition.loads` relies on to advance its cursor — so a decode call does
mutate the shared codec object. -/
theorem c2_loads_mutates_only_size :
    (∀ (a : ArrayCodec) (s : List Nat) (off : Nat) (le : Bool) (out : List Value × ArrayCodec)
      (len : Nat), a.loads s off le = .ok out → unpackLenFrom s off le = .ok len →
      out.2 = { a with size := some (len * formatSize a.value_format + 4) }) ∧
    (∀ (sc : StringCodec) (s : List Nat) (off : Nat) (le : Bool) (out : Value × StringCodec)
      (len : Nat), sc.loads s off le = .ok out → unpackLenFrom s off le = .ok len →
      out.2 = { sc with size := some (len + 4) }) := by
  constructor
  · intro a s off le out len hl hlen
    unfold ArrayCodec.loads at hl
    rw [hlen, okBind] at hl
    by_cases hz : len ≠ 0
    · rw [if_pos hz] at hl
      cases hs : unpackSeqFrom a.value_format le len s (off + 4) with
      | error e => rw [hs, errBind] at hl; exact Except.noConfusion hl
      | ok vs =>
        rw [hs, okBind] at hl
        injection hl with hl
        rw [← hl]
    · rw [if_neg hz] at hl
      injection hl with hl
      rw [← hl]
      have h0 : len = 0 := by omega
      subst h0
      simp
  · intro sc s off le out len hl hlen
    unfold StringCodec.loads at hl
    rw [hlen, okBind] at hl
    by_cases hz : len ≠ 0
    · rw [if_pos hz] at hl
      cases hr : readAt s (off + 4) len with
      | none => rw [hr] at hl; exact Except.noConfusion hl
      | some bs =>
        rw [hr] at hl
        have hl2 : (match utf8Decode bs with
            | some cps => pure (Value.vstr cps, ({ size := some (len + 4) } : StringCodec))
            | none => Except.error JErr.unicodeDecodeError) = Except.ok out := hl
        cases hdd : utf8Decode bs with
        | none => rw [hdd] at hl2; exact Except.noConfusion hl2
        | some cps =>
          rw [hdd] at hl2
          injection hl2 with hl2
          rw [← hl2]
    · rw [if_neg hz] at hl
      injection hl with hl
      rw [← hl]
      have h0 : len = 0 := by omega
      subst h0
      rfl

/-- Claim C2 — witness for the amended statement, at a concrete one-byte
array decode. -/
theorem c2_witness :
    (([Value.vint 7], (⟨'B', some 5⟩ : ArrayCodec)) : List Value × ArrayCodec).2 =
      { (⟨'B', none⟩ : ArrayCodec) with size := some (1 * formatSize 'B' + 4) } :=
  c2_loads_mutates_only_size.1 ⟨'B', none⟩ [0, 0, 0, 1, 7] 0 false
    ([Value.vint 7], ⟨'B', some 5⟩) 1 rfl rfl

/-- Claim C3.  For each of the six integer type tags, the codec
registered in the codec table rejects every value outside the tag's
representable range with a `struct.error` (a range error), never truncating
or wrapping. -/
theorem c3_integer_range_enforced (t : String) (c : Codec) (lo hi n : Int) (le : Bool)
    (ht : t ∈ (["int8", "int16", "int32", "uint8", "uint16", "uint32"] : List String))
    (hc : _codecs t = some (.prim c))
    (hr : intRange c.format = some (lo, hi))
    (hout : n < lo ∨ hi < n) :
    c.dumps (.vint n) le = .error .structError :=
  packValue_out_of_range c.format lo hi n le hr hout

/-- Claim C3 — witness: encoding 256 as uint8 fails with a range error. -/
theorem c3_witness : (⟨'B'⟩ : Codec).dumps (.vint 256) false = .error .structError :=
  c3_integer_range_enforced "uint8" ⟨'B'⟩ 0 255 256 false (by simp) rfl rfl
    (Or.inr (by norm_num))

/-- Claim C4 — counterexample.  A raw byte buffer passed to the string
codec's encode fails via the `assert isinstance(value, six.text_type)`
statement, i.e. with an `AssertionError`, not a `ValueError`-class error. -/
theorem c4_counterexample :
    StringCodec.dumps { size := none } (.vbytes [104, 105]) false =
      .error .assertionError ∧
    JErr.assertionError ≠ JErr.valueError :=
  ⟨rfl, by decide⟩

/-- Claim C4 (amended).  Every non-text input to `StringCodec.dumps`
fails fast — before any encoding takes place — but with an `AssertionError`
(the FIXME-marked `assert`), not a `ValueError`-class error. -/
theorem c4_nontext_fails_fast (sc : StringCodec) (v : Value) (le : Bool)
    (h : isText v = false) :
    StringCodec.dumps sc v le = .error .assertionError := by
  cases v <;> first | rfl | exact Bool.noConfusion h

/-- Claim C4 — witness at a concrete byte-buffer input. -/
theorem c4_witness :
    StringCodec.dumps { size := none } (.vbytes []) false = .error .assertionError :=
  c4_nontext_fails_fast { size := none } (.vbytes []) false rfl

/-- Claim C6.  Array codec layout: an empty sequence encodes to exactly
the four zero bytes of the length prefix; decoding a zero length prefix
yields the empty sequence with the `size` attribute (the consumed count) set
to exactly 4; and every successful decode of `n` elements sets the consumed
count to `4 + n × element_size`. -/
theorem c6_array_empty_and_consumed :
    (∀ (a : ArrayCodec) (le : Bool), a.dumps [] le = .ok [0, 0, 0, 0]) ∧
    (∀ (a : ArrayCodec) (s : List Nat) (off : Nat) (le : Bool),
      unpackLenFrom s off le = .ok 0 →
      a.loads s off le = .ok ([], { a with size := some 4 })) ∧
    (∀ (a : ArrayCodec) (s : List Nat) (off : Nat) (le : Bool)
      (out : List Value × ArrayCodec), a.loads s off le = .ok out →
      out.2.size = some (4 + out.1.length * formatSize a.value_format)) := by
  refine ⟨?_, ?_, ?_⟩
  · intro a le
    cases le <;> rfl
  · intro a s off le h
    unfold ArrayCodec.loads
    rw [h, okBind]
    rfl
  · intro a s off le out hl
    unfold ArrayCodec.loads at hl
    cases hlen : unpackLenFrom s off le with
    | error e => rw [hlen, errBind] at hl; exact Except.noConfusion hl
    | ok len =>
      rw [hlen, okBind] at hl
      by_cases hz : len ≠ 0
      · rw [if_pos hz] at hl
        cases hs : unpackSeqFrom a.value_format le len s (off + 4) with
        | error e => rw [hs, errBind] at hl; exact Except.noConfusion hl
        | ok vs =>
          rw [hs, okBind] at hl
          injection hl with hl
          rw [← hl]
          show some (len * formatSize a.value_format + 4) =
            some (4 + vs.length * formatSize a.value_format)
          rw [unpackSeqFrom_length a.value_format le len s (off + 4) vs hs]
          ring_nf
      · rw [if_neg hz] at hl
        injection hl with hl
        rw [← hl]
        simp

/-- Claim C6 — witness at a zero-length decode and a two-element uint8
decode. -/
theorem c6_witness :
    (⟨'B', none⟩ : ArrayCodec).loads [0, 0, 0, 0] 0 false =
      .ok ([], { (⟨'B', none⟩ : ArrayCodec) with size := some 4 }) ∧
    (([Value.vint 7, Value.vint 8], (⟨'B', some 6⟩ : ArrayCodec)) :
        List Value × ArrayCodec).2.size =
      some (4 + [Value.vint 7, Value.vint 8].length * formatSize 'B') :=
  ⟨c6_array_empty_and_consumed.2.1 ⟨'B', none⟩ [0, 0, 0, 0] 0 false rfl,
   c6_array_empty_and_consumed.2.2 ⟨'B', none⟩ [0, 0, 0, 2, 7, 8] 0 false
     ([Value.vint 7, Value.vint 8], ⟨'B', some 6⟩) rfl⟩

theorem _codecs_str_inv (t : String) (sc : StringCodec) (h : _codecs t = some (.str sc)) :
    t = "string" := by
  unfold _codecs at h
  split at h <;> simp_all

theorem _codecs_shape (t : String) :
    _codecs t = none ∨ (∃ c, _codecs t = some (.prim c)) ∨ _codecs t = some (.str ⟨none⟩) := by
  unfold _codecs
  split <;> simp

theorem mem_alistSet {κ α : Type} [DecidableEq κ] (l : List (κ × α)) (k : κ) (v : α)
    (p : κ × α) (h : p ∈ alistSet l k v) : p = (k, v) ∨ p ∈ l := by
  induction l with
  | nil =>
    simp only [alistSet, List.mem_singleton] at h
    exact Or.inl h
  | cons hd tl ih =>
    obtain ⟨k1, v1⟩ := hd
    simp only [alistSet] at h
    by_cases h1 : k1 = k
    · rw [if_pos h1] at h
      rcases List.mem_cons.mp h with h | h
      · exact Or.inl (by rw [h, h1])
      · exact Or.inr (List.mem_cons_of_mem _ h)
    · rw [if_neg h1] at h
      rcases List.mem_cons.mp h with h | h
      · exact Or.inr (by simp [h])
      · rcases ih h with h | h
        · exact Or.inl h
        · exact Or.inr (List.mem_cons_of_mem _ h)

theorem alistSet_append {κ α : Type} [DecidableEq κ] (l : List (κ × α)) (k : κ) (v : α)
    (h : ∀ p ∈ l, p.1 ≠ k) : alistSet l k v = l ++ [(k, v)] := by
  induction l with
  | nil => rfl
  | cons hd tl ih =>
    obtain ⟨k1, v1⟩ := hd
    simp only [alistSet]
    rw [if_neg (h (k1, v1) (by simp))]
    simp only [List.cons_append, List.cons.injEq, true_and]
    exact ih (fun p hp => h p (List.mem_cons_of_mem _ hp))

/-- What a successful `Schema.define` produces: the definition takes the next
sequential id, the given key, big-endian encoding, and both registries gain
it while the counter advances. -/
theorem define_ok_spec (s : Schema) (k : String) (fs : List FieldSpec) (d : Definition)
    (s2 : Schema) (h : Schema.define s k fs = .ok (d, s2)) :
    d.id = some s.next_definition_id ∧ d.key = some k ∧ d.little_endian = false ∧
    s2 = { s with
      next_definition_id := s.next_definition_id + 1,
      definitions := alistSet s.definitions k d,
      definitions_by_id := alistSet s.definitions_by_id s.next_definition_id d } := by
  unfold Schema.define at h
  cases hm : fs.mapM (fun sp => Field.init sp.key sp.type sp.value_type) with
  | error e => rw [hm, errBind] at h; exact Except.noConfusion h
  | ok flds =>
    rw [hm, okBind] at h
    injection h with h
    obtain ⟨h1, h2⟩ := Prod.mk.injEq .. |>.mp h
    subst h2
    rw [← h1]
    exact ⟨rfl, rfl, rfl, rfl⟩

theorem schemaInv_init (idt : String) : SchemaInv (Schema.init idt) := by
  refine ⟨le_refl 1, ?_, ?_, ?_⟩ <;> simp [Schema.init]

theorem schemaInv_define (s : Schema) (k : String) (fs : List FieldSpec) (d : Definition)
    (s2 : Schema) (hinv : SchemaInv s) (h : Schema.define s k fs = .ok (d, s2)) :
    SchemaInv s2 := by
  obtain ⟨hid, hkey, hle, rfl⟩ := define_ok_spec s k fs d s2 h
  obtain ⟨h1, h2, h3, h4⟩ := hinv
  have hfresh : ∀ p ∈ s.definitions_by_id, p.1 ≠ s.next_definition_id := by
    intro p hp
    have := (h2 p hp).2.2
    omega
  have happ : alistSet s.definitions_by_id s.next_definition_id d =
      s.definitions_by_id ++ [(s.next_definition_id, d)] :=
    alistSet_append _ _ _ hfresh
  refine ⟨by show 1 ≤ s.next_definition_id + 1; omega, ?_, ?_, ?_⟩
  · intro p hp
    rcases mem_alistSet _ _ _ p hp with rfl | hp2
    · exact ⟨hid, by omega,
        by show s.next_definition_id < s.next_definition_id + 1; omega⟩
    · have hb := h2 p hp2
      refine ⟨hb.1, hb.2.1, ?_⟩
      have := hb.2.2
      show p.1 < s.next_definition_id + 1
      omega
  · show ((alistSet s.definitions_by_id s.next_definition_id d).map Prod.fst).Nodup
    rw [happ, List.map_append]
    rw [List.nodup_append]
    refine ⟨h3, List.nodup_singleton _, ?_⟩
    intro i hi
    simp only [List.mem_map] at hi
    obtain ⟨p, hp, rfl⟩ := hi
    simp only [List.map_cons, List.map_nil, List.mem_singleton]
    exact fun hcontra => hfresh p hp hcontra
  · intro p hp
    rcases mem_alistSet _ _ _ p hp with rfl | hp2
    · refine ⟨s.next_definition_id, hid, ?_⟩
      rw [alistGet_alistSet, if_pos rfl]
    · obtain ⟨i, hi1, hi2⟩ := h4 p hp2
      refine ⟨i, hi1, ?_⟩
      rw [alistGet_alistSet]
      have hiold : (i, p.2) ∈ s.definitions_by_id := alistGet_mem _ _ _ hi2
      have hibound := (h2 (i, p.2) hiold).2.2
      rw [if_neg (by omega)]
      exact hi2

theorem schemaInv_runDefines (s : Schema) (ops : List (String × List FieldSpec))
    (hinv : SchemaInv s) : SchemaInv (runDefines s ops) := by
  induction ops generalizing s with
  | nil => exact hinv
  | cons op ops ih =>
    obtain ⟨k, fsp⟩ := op
    cases hdef : Schema.define s k fsp with
    | ok p =>
      obtain ⟨d, s2⟩ := p
      have hstep : runDefines s ((k, fsp) :: ops) = runDefines s2 ops := by
        show (match Schema.define s k fsp with
          | .ok (_, s2) => runDefines s2 ops
          | .error _ => runDefines s ops) = runDefines s2 ops
        rw [hdef]
      rw [hstep]
      exact ih s2 (schemaInv_define s k fsp d s2 hinv hdef)
    | error e =>
      have hstep : runDefines s ((k, fsp) :: ops) = runDefines s ops := by
        show (match Schema.define s k fsp with
          | .ok (_, s2) => runDefines s2 ops
          | .error _ => runDefines s ops) = runDefines s ops
        rw [hdef]
      rw [hstep]
      exact ih s hinv

/-- Claim C7 — counterexample.  After defining the same key twice, the
definition with id 1 is still registered in the id map but the key map holds
only the id-2 definition, so a registered definition does not appear in both
maps. -/
theorem c7_counterexample :
    alistGet c7CexSchema.definitions_by_id 1 = some c7OldDef ∧
    c7CexSchema.definitions = [("a", c7NewDef)] ∧
    c7OldDef ≠ c7NewDef :=
  ⟨rfl, rfl, by decide⟩

/-- Claim C7 (amended).  Every `define` call assigns the next sequential
id (so the first yields 1, the second 2, regardless of key) and advances the
counter; and after any sequence of `define` calls from a fresh schema, every
id-map entry holds a definition bearing its own unique id in `[1, next_id)`,
and every definition in the key map is registered under its id in the id map
(a definition displaced by a same-key redefinition survives only in the id
map, as the C7 counterexample shows). -/
theorem c7_ids_sequential_and_registries :
    (∀ (s : Schema) (k : String) (fs : List FieldSpec) (d : Definition) (s2 : Schema),
      Schema.define s k fs = .ok (d, s2) →
      d.id = some s.next_definition_id ∧
      s2.next_definition_id = s.next_definition_id + 1) ∧
    (∀ (idt : String) (ops : List (String × List FieldSpec)),
      SchemaInv (runDefines (Schema.init idt) ops)) := by
  constructor
  · intro s k fs d s2 h
    obtain ⟨h1, _, _, rfl⟩ := define_ok_spec s k fs d s2 h
    exact ⟨h1, rfl⟩
  · intro idt ops
    exact schemaInv_runDefines _ ops (schemaInv_init idt)

/-- Claim C7 — witness: the very first `define` on a fresh schema yields
id 1 and advances the counter to 2. -/
theorem c7_witness :
    (({ fields := [], id := some 1, key := some "a" } : Definition).id =
        some (Schema.init "uint8").next_definition_id) ∧
    (({ definitions := [("a", { fields := [], id := some 1, key := some "a" })],
        definitions_by_id := [(1, { fields := [], id := some 1, key := some "a" })],
        id_type := "uint8", next_definition_id := 2 } : Schema).next_definition_id =
      (Schema.init "uint8").next_definition_id + 1) :=
  c7_ids_sequential_and_registries.1 (Schema.init "uint8") "a" []
    { fields := [], id := some 1, key := some "a" }
    { definitions := [("a", { fields := [], id := some 1, key := some "a" })],
      definitions_by_id := [(1, { fields := [], id := some 1, key := some "a" })],
      id_type := "uint8", next_definition_id := 2 } rfl

set_option maxRecDepth 4096 in
/-- Claim C8 — counterexample.  The 256th registration in a
default-id-type schema — whose id, 256, exceeds what the 1-byte unsigned id
codec can represent — succeeds without any error: `define` itself never
surfaces the capacity violation. -/
theorem c8_counterexample :
    (defineTimes 255 (Schema.init "uint8")).next_definition_id = 256 ∧
    Schema.define (defineTimes 255 (Schema.init "uint8")) "k" [] =
      .ok ({ fields := [], id := some 256, key := some "k" },
        defineTimes 256 (Schema.init "uint8")) := by
  constructor
  · rfl
  · rfl

/-- Claim C8 (amended).  Registering past the id codec's capacity
succeeds silently; the violation surfaces when `dumps` encodes the oversized
id: for the default 1-byte unsigned id type, dumping any definition whose id
exceeds 255 fails with a `struct.error` range error instead of wrapping. -/
theorem c8_capacity_surfaces_at_dumps (s : Schema) (key : String) (d : Definition)
    (i : Nat) (data : Dict)
    (ht : s.id_type = "uint8")
    (hd : alistGet s.definitions key = some d)
    (hid : d.id = some i) (hcap : 255 < i) :
    s.dumps key data = .error .structError := by
  unfold Schema.dumps
  rw [hd, ht]
  show ((FieldCodec.prim ⟨'B'⟩).dumps
      (match d.id with | some i => Value.vint i | none => Value.vnone) false >>=
    fun idBytes => (d.dumps data >>= fun body => pure (idBytes ++ body))) =
    Except.error JErr.structError
  rw [hid]
  show (Codec.dumps ⟨'B'⟩ (Value.vint i) false >>=
    fun idBytes => (d.dumps data >>= fun body => pure (idBytes ++ body))) =
    Except.error JErr.structError
  have hp : packValue 'B' (.vint i) false = .error .structError :=
    packValue_out_of_range 'B' 0 255 i false rfl (Or.inr (by exact_mod_cast hcap))
  unfold Codec.dumps
  rw [hp, errBind]

/-- Claim C8 — witness: dumping a record for a definition with id 256 in
a uint8-id schema fails with the range error. -/
theorem c8_witness :
    ({ definitions := [("k", c8Def)], definitions_by_id := [(256, c8Def)],
       id_type := "uint8", next_definition_id := 257 } : Schema).dumps "k" [] =
      .error .structError :=
  c8_capacity_surfaces_at_dumps _ "k" c8Def 256 [] rfl rfl rfl (by omega)

/-- Claim C9.  Redefining the same key consumes a fresh id, replaces the
definition in the key map, leaves the old definition registered in the id map
under its old id, and `Schema.loads` of a packet carrying the old id still
dispatches to (decodes against) the old definition. -/
theorem c9_redefine_same_key (s0 : Schema) (k : String) (f1 f2 : List FieldSpec)
    (d1 : Definition) (s1 : Schema) (d2 : Definition) (s2 : Schema)
    (h1 : Schema.define s0 k f1 = .ok (d1, s1))
    (h2 : Schema.define s1 k f2 = .ok (d2, s2)) :
    d1.id = some s0.next_definition_id ∧
    d2.id = some (s0.next_definition_id + 1) ∧
    alistGet s2.definitions k = some d2 ∧
    alistGet s2.definitions_by_id s0.next_definition_id = some d1 ∧
    (s0.id_type = "uint8" → s0.next_definition_id ≤ 255 →
      ∀ rest, Schema.loads s2 (packNatRaw 1 s0.next_definition_id false ++ rest) =
        Definition.loads d1 (packNatRaw 1 s0.next_definition_id false ++ rest) 1) := by
  obtain ⟨hid1, hkey1, hle1, rfl⟩ := define_ok_spec s0 k f1 d1 s1 h1
  obtain ⟨hid2, hkey2, hle2, rfl⟩ := define_ok_spec _ k f2 d2 _ h2
  have hby : alistGet
      (alistSet (alistSet s0.definitions_by_id s0.next_definition_id d1)
        (s0.next_definition_id + 1) d2) s0.next_definition_id = some d1 := by
    rw [alistGet_alistSet, if_neg (by omega), alistGet_alistSet, if_pos rfl]
  refine ⟨hid1, hid2, ?_, hby, ?_⟩
  · show alistGet (alistSet (alistSet s0.definitions k d1) k d2) k = some d2
    rw [alistGet_alistSet, if_pos rfl]
  · intro hidt hcap rest
    unfold Schema.loads
    show (match _codecs s0.id_type with
        | none => Except.error JErr.keyError
        | some id_codec =>
          id_codec.loads (packNatRaw 1 s0.next_definition_id false ++ rest) 0 false >>=
            fun p =>
              match (idKeyOf p.1).bind (alistGet
                  (alistSet (alistSet s0.definitions_by_id s0.next_definition_id d1)
                    (s0.next_definition_id + 1) d2)) with
              | none => Except.error JErr.keyError
              | some definition =>
                match p.2.size with
                | some n =>
                  definition.loads (packNatRaw 1 s0.next_definition_id false ++ rest) n
                | none => Except.error JErr.attributeError) =
      Definition.loads d1 (packNatRaw 1 s0.next_definition_id false ++ rest) 1
    rw [hidt]
    have hread : readAt (packNatRaw 1 s0.next_definition_id false ++ rest) 0
        (formatSize 'B') = some (packNatRaw 1 s0.next_definition_id false) := by
      have := readAt_at [] (packNatRaw 1 s0.next_definition_id false) rest (formatSize 'B')
        (by simp [packNatRaw_length, formatSize])
      simpa using this
    have hu : unpackValueFrom 'B' (packNatRaw 1 s0.next_definition_id false ++ rest) 0
        false = .ok (.vint s0.next_definition_id) := by
      unfold unpackValueFrom
      rw [hread]
      show Except.ok (Value.vint
          (unpackNatRaw (packNatRaw 1 s0.next_definition_id false) false)) =
        Except.ok (Value.vint s0.next_definition_id)
      rw [unpackNatRaw_packNatRaw 1 s0.next_definition_id false (by omega)]
    have hloadsId : (FieldCodec.prim ⟨'B'⟩).loads
        (packNatRaw 1 s0.next_definition_id false ++ rest) 0 false =
        .ok (.vint s0.next_definition_id, .prim ⟨'B'⟩) := by
      show (Codec.loads ⟨'B'⟩ (packNatRaw 1 s0.next_definition_id false ++ rest) 0
          false).map (fun v => (v, FieldCodec.prim ⟨'B'⟩)) =
        Except.ok (Value.vint s0.next_definition_id, FieldCodec.prim ⟨'B'⟩)
      unfold Codec.loads
      rw [hu]
      rfl
    show ((FieldCodec.prim ⟨'B'⟩).loads
        (packNatRaw 1 s0.next_definition_id false ++ rest) 0 false >>= fun p =>
          match (idKeyOf p.1).bind (alistGet
              (alistSet (alistSet s0.definitions_by_id s0.next_definition_id d1)
                (s0.next_definition_id + 1) d2)) with
          | none => Except.error JErr.keyError
          | some definition =>
            match p.2.size with
            | some n =>
              definition.loads (packNatRaw 1 s0.next_definition_id false ++ rest) n
            | none => Except.error JErr.attributeError) =
      Definition.loads d1 (packNatRaw 1 s0.next_definition_id false ++ rest) 1
    rw [hloadsId]
    have hkey : (idKeyOf (.vint s0.next_definition_id)).bind (alistGet
        (alistSet (alistSet s0.definitions_by_id s0.next_definition_id d1)
          (s0.next_definition_id + 1) d2)) = some d1 := by
      show (if ((s0.next_definition_id : Int) < 0) then none
          else some ((s0.next_definition_id : Int)).toNat).bind
        (alistGet (alistSet (alistSet s0.definitions_by_id s0.next_definition_id d1)
          (s0.next_definition_id + 1) d2)) = some d1
      rw [if_neg (by omega)]
      show alistGet (alistSet (alistSet s0.definitions_by_id s0.next_definition_id d1)
        (s0.next_definition_id + 1) d2) ((s0.next_definition_id : Int)).toNat = some d1
      simpa using hby
    show (match (idKeyOf (Value.vint s0.next_definition_id)).bind (alistGet
        (alistSet (alistSet s0.definitions_by_id s0.next_definition_id d1)
          (s0.next_definition_id + 1) d2)) with
        | none => Except.error JErr.keyError
        | some definition =>
          match (FieldCodec.prim (⟨'B'⟩ : Codec)).size with
          | some n =>
            definition.loads (packNatRaw 1 s0.next_definition_id false ++ rest) n
          | none => Except.error JErr.attributeError) =
      Definition.loads d1 (packNatRaw 1 s0.next_definition_id false ++ rest) 1
    rw [hkey]
    rfl

/-- Claim C9 — witness at a concrete redefinition of the key `"a"`. -/
theorem c9_witness :
    alistGet c9S2.definitions "a" = some c9D2 ∧
    alistGet c9S2.definitions_by_id 1 = some c9D1 ∧
    Schema.loads c9S2 (packNatRaw 1 1 false ++ [7]) =
      Definition.loads c9D1 (packNatRaw 1 1 false ++ [7]) 1 := by
  have h := c9_redefine_same_key (Schema.init "uint8") "a" []
    [{ key := "b", type := "uint8" }] c9D1 c9S1 c9D2 c9S2 rfl rfl
  exact ⟨h.2.2.1, h.2.2.2.1, h.2.2.2.2 rfl (by decide) [7]⟩

/-- Claim C10.  Neither `Schema.define` nor the module-level `define`
helper exposes the `little_endian` parameter, so every definition they
construct has `little_endian = False` and is encoded big-endian (the id
prefix is likewise dumped with the codec's big-endian default). -/
theorem c10_defines_are_big_endian :
    (∀ (s : Schema) (k : String) (fs : List FieldSpec) (d : Definition) (s2 : Schema),
      Schema.define s k fs = .ok (d, s2) → d.little_endian = false) ∧
    (∀ (fs : List FieldSpec) (d : Definition), define fs = .ok d → d.little_endian = false) := by
  constructor
  · intro s k fs d s2 h
    exact (define_ok_spec s k fs d s2 h).2.2.1
  · intro fs d h
    unfold define at h
    cases hm : fs.mapM (fun sp => Field.init sp.key sp.type sp.value_type) with
    | error e => rw [hm, errBind] at h; exact Except.noConfusion h
    | ok flds =>
      rw [hm, okBind] at h
      injection h with h
      rw [← h]

/-- Claim C10 — witness at two concrete `define` calls. -/
theorem c10_witness :
    (({ fields := [], id := some 1, key := some "a" } : Definition).little_endian = false) ∧
    (({ fields := [] } : Definition).little_endian = false) :=
  ⟨c10_defines_are_big_endian.1 (Schema.init "uint8") "a" []
      { fields := [], id := some 1, key := some "a" }
      { definitions := [("a", { fields := [], id := some 1, key := some "a" })],
        definitions_by_id := [(1, { fields := [], id := some 1, key := some "a" })],
        id_type := "uint8", next_definition_id := 2 } rfl,
   c10_defines_are_big_endian.2 [] { fields := [] } rfl⟩

/-- Claim C5.  `Field` construction fails (with the construction-time
`ValueError`) exactly when the key is empty, or the type tag is unknown, or
the type is `array` and the value type is missing, is itself `array` or
`string`, or is not in the codec table; and on success the field binds the
one concrete codec its type resolves to, carrying the given key and tags. -/
theorem c5_field_construction (key type : String) (value_type : Option String) :
    ((∃ e, Field.init key type value_type = .error e) ↔
      (key = "" ∨
       (type = "array" ∧ (value_type = none ∨ value_type = some "array" ∨
         value_type = some "string" ∨
         ∃ vt, value_type = some vt ∧ _codecs vt = none)) ∨
       (type ≠ "array" ∧ _codecs type = none))) ∧
    (∀ f, Field.init key type value_type = .ok f →
      f.key = key ∧ f.type = type ∧ f.value_type = value_type ∧
      ((type = "array" ∧ ∃ vt c, value_type = some vt ∧ _codecs vt = some (.prim c) ∧
          f.codec = .array { value_format := c.format }) ∨
       (type ≠ "array" ∧ _codecs type = some f.codec))) := by
  by_cases hk : key = ""
  · have hinit : Field.init key type value_type = .error .valueError := by
      unfold Field.init
      rw [if_pos hk]
    constructor
    · exact iff_of_true ⟨_, hinit⟩ (Or.inl hk)
    · intro f hf
      rw [hinit] at hf
      exact Except.noConfusion hf
  · by_cases ht : type = "array"
    · subst ht
      cases value_type with
      | none =>
        have hinit : Field.init key "array" none = .error .valueError := by
          unfold Field.init
          rw [if_neg hk, if_pos rfl, if_neg (by simp)]
        constructor
        · exact iff_of_true ⟨_, hinit⟩ (Or.inr (Or.inl ⟨rfl, Or.inl rfl⟩))
        · intro f hf
          rw [hinit] at hf
          exact Except.noConfusion hf
      | some vt =>
        by_cases hva : vt = "array" ∨ vt = "string"
        · have hinit : Field.init key "array" (some vt) = .error .valueError := by
            unfold Field.init
            rw [if_neg hk, if_pos rfl, if_pos (by rcases hva with h | h <;> simp [h])]
          constructor
          · refine iff_of_true ⟨_, hinit⟩ (Or.inr (Or.inl ⟨rfl, ?_⟩))
            rcases hva with h | h
            · exact Or.inr (Or.inl (by rw [h]))
            · exact Or.inr (Or.inr (Or.inl (by rw [h])))
          · intro f hf
            rw [hinit] at hf
            exact Except.noConfusion hf
        · push_neg at hva
          rcases _codecs_shape vt with hcv | ⟨c, hcv⟩ | hcv
          · have hinit : Field.init key "array" (some vt) = .error .valueError := by
              simp [Field.init, hk, hva.1, hva.2, hcv]
            constructor
            · exact iff_of_true ⟨_, hinit⟩
                (Or.inr (Or.inl ⟨rfl, Or.inr (Or.inr (Or.inr ⟨vt, rfl, hcv⟩))⟩))
            · intro f hf
              rw [hinit] at hf
              exact Except.noConfusion hf
          · have hinit : Field.init key "array" (some vt) = .ok
                { key := key, type := "array", value_type := some vt,
                  codec := .array { value_format := c.format } } := by
              simp [Field.init, hk, hva.1, hva.2, hcv]
            constructor
            · apply iff_of_false
              · rintro ⟨e, he⟩
                rw [hinit] at he
                exact Except.noConfusion he
              · rintro (h | ⟨_, h⟩ | ⟨h, _⟩)
                · exact hk h
                · rcases h with h | h | h | ⟨vt2, hv2, hc2⟩
                  · exact Option.noConfusion h
                  · injection h with h
                    exact hva.1 h
                  · injection h with h
                    exact hva.2 h
                  · injection hv2 with hv2
                    rw [← hv2, hcv] at hc2
                    exact Option.noConfusion hc2
                · exact h rfl
            · intro f hf
              rw [hinit] at hf
              injection hf with hf
              rw [← hf]
              exact ⟨rfl, rfl, rfl, Or.inl ⟨rfl, vt, c, rfl, hcv, rfl⟩⟩
          · exact absurd (_codecs_str_inv vt ⟨none⟩ hcv) hva.2
    · cases hct : _codecs type with
      | none =>
        have hinit : Field.init key type value_type = .error .valueError := by
          simp [Field.init, hk, ht, hct]
        constructor
        · exact iff_of_true ⟨_, hinit⟩ (Or.inr (Or.inr ⟨ht, rfl⟩))
        · intro f hf
          rw [hinit] at hf
          exact Except.noConfusion hf
      | some c =>
        have hinit : Field.init key type value_type = .ok
            { key := key, type := type, value_type := value_type, codec := c } := by
          simp [Field.init, hk, ht, hct]
        constructor
        · apply iff_of_false
          · rintro ⟨e, he⟩
            rw [hinit] at he
            exact Except.noConfusion he
          · rintro (h | ⟨h, _⟩ | ⟨_, h⟩)
            · exact hk h
            · exact ht h
            · exact Option.noConfusion h
        · intro f hf
          rw [hinit] at hf
          injection hf with hf
          rw [← hf]
          exact ⟨rfl, rfl, rfl, Or.inr ⟨ht, rfl⟩⟩

/-- Claim C5 — witness: the empty key is rejected at construction. -/
theorem c5_witness : ∃ e, Field.init "" "uint8" none = .error e :=
  (c5_field_construction "" "uint8" none).1.mpr (Or.inl rfl)

/-- Claim C1 — counterexample.  A record holding an in-range Python
*list* for an array field encodes fine, but `loads (dumps ...)` returns the
field as a *tuple* (what `struct.unpack_from` yields), and Python `==`
distinguishes `[1]` from `(1,)`, so the decoded record is not equal to the
original. -/
theorem c1_counterexample :
    alistGet c1CexSchema.definitions "m" = some c1CexDef ∧
    recordEncodableB c1CexDef [("a", .vlist [.vint 1])] = true ∧
    (c1CexSchema.dumps "m" [("a", .vlist [.vint 1])] >>= c1CexSchema.loads) =
      .ok [("a", .vtuple [.vint 1])] ∧
    dictEqB [("a", .vtuple [.vint 1])] [("a", .vlist [.vint 1])] = false :=
  ⟨rfl, rfl, rfl, rfl⟩

/-- Claim C1 (amended).  For a schema whose id type is an unsigned
integer tag with the definition's id in range, and a record that maps each
field key (and no other) to an in-range value of the field's declared type —
with array values given as the tuples decoding produces — `loads (dumps key
record)` returns a record equal to the original. -/
theorem c1_schema_roundtrip (s : Schema) (key : String) (d : Definition) (i : Nat)
    (record : Dict)
    (hd : alistGet s.definitions key = some d)
    (hid : d.id = some i)
    (hby : alistGet s.definitions_by_id i = some d)
    (hidt : (s.id_type = "uint8" ∧ i ≤ 255) ∨ (s.id_type = "uint16" ∧ i ≤ 65535) ∨
      (s.id_type = "uint32" ∧ i ≤ 4294967295))
    (hwf : recordWFB d record = true) :
    ∃ bs out, s.dumps key record = .ok bs ∧ s.loads bs = .ok out ∧
      dictEqB out record = true := by
  rcases hidt with ⟨ht, hr⟩ | ⟨ht, hr⟩ | ⟨ht, hr⟩
  · refine schema_roundtrip_core s key d i record ⟨'B'⟩ (by rw [ht]; rfl) hd hid hby ?_ hwf
    show (decide ((0 : Int) ≤ (i : Int)) && decide ((i : Int) ≤ 255)) = true
    simp only [Bool.and_eq_true, decide_eq_true_eq]
    omega
  · refine schema_roundtrip_core s key d i record ⟨'H'⟩ (by rw [ht]; rfl) hd hid hby ?_ hwf
    show (decide ((0 : Int) ≤ (i : Int)) && decide ((i : Int) ≤ 65535)) = true
    simp only [Bool.and_eq_true, decide_eq_true_eq]
    omega
  · refine schema_roundtrip_core s key d i record ⟨'I'⟩ (by rw [ht]; rfl) hd hid hby ?_ hwf
    show (decide ((0 : Int) ≤ (i : Int)) && decide ((i : Int) ≤ 4294967295)) = true
    simp only [Bool.and_eq_true, decide_eq_true_eq]
    omega

/-- Claim C1 — witness at a record with an int16, a non-ASCII string and
a uint8 tuple. -/
theorem c1_witness :
    ∃ bs out, c1WitnessSchema.dumps "m"
        [("a", .vint (-5)), ("s", .vstr [104, 248]), ("p", .vtuple [.vint 7])] = .ok bs ∧
      c1WitnessSchema.loads bs = .ok out ∧
      dictEqB out
        [("a", .vint (-5)), ("s", .vstr [104, 248]), ("p", .vtuple [.vint 7])] = true :=
  c1_schema_roundtrip c1WitnessSchema "m" c1WitnessDef 1
    [("a", .vint (-5)), ("s", .vstr [104, 248]), ("p", .vtuple [.vint 7])]
    rfl rfl rfl (Or.inl ⟨rfl, by omega⟩) (by decide)

end Jettison
